import Mathlib

/-!
Verification development for the fulgurite phylogenetics package.

The development shallowly embeds the core of the repository:

* `src/fulgurite/likelihood.py` — Felsenstein pruning likelihood engine
  operating on trees produced by the external `newick` parser;
* `src/fulgurite/tree.py` — the mutable `PhyloNode`/`PhyloTree` structure
  built on the `anytree` library, with the topology operators
  `attach`, `detach`, `swap`, `prune_and_regraft`;
* `src/fulgurite/mcmc.py` — the rate-parameter proposal of the Metropolis
  sampler.

Python floats are modelled by exact numbers (ℚ inside data structures, ℝ in
the analytic statements); all rounding claims have slack several orders of
magnitude above double-precision error, so real-number semantics is adequate.
Mutable object graphs (`anytree`) are modelled by an explicit heap (arena) of
node records addressed by natural-number ids; Python object identity is id
equality and Python `==` (overridden structurally by `PhyloNode.__eq__`) is
the fuel-bounded `structEq` below.
-/

namespace Fulgurite

/-! ### Model of the external newick parser output

The `newick` package parses a Newick string into a tree of `Node` objects
with a `name`, a `length` (defaulting to `0.0` when the text gives none) and
ordered `descendants`.  Parsing itself is an external collaborator; we model
its output.  Node references are modelled as paths (lists of child indices)
from the root, matching Python object identity for distinct tree positions;
the `newick` `Node` class does not override `__eq__`, so `in`/`==` on these
nodes is identity. -/

inductive NTree where
  | node (name : Option String) (length : Option ℚ) (descendants : List NTree)
deriving Repr

abbrev NPath := List ℕ

def NTree.name : NTree → Option String
  | .node n _ _ => n

def NTree.lengthAttr : NTree → Option ℚ
  | .node _ l _ => l

def NTree.descendants : NTree → List NTree
  | .node _ _ ds => ds

/-- The `newick` package's `Node.length` property returns `0.0` when the
parsed text carried no branch length. -/
def NTree.blen (t : NTree) : ℚ := (t.lengthAttr).getD 0

/-- Subtree of `t` at path `p` (child indices from the root). -/
def NTree.sub? : NTree → NPath → Option NTree
  | t, [] => some t
  | t, i :: p => match t.descendants.get? i with
    | some c => c.sub? p
    | none => none

mutual

/-- Preorder list of all node paths, mirroring `newick.Node.walk`
(yield self, then walk each descendant in order). -/
def NTree.walkPaths : NTree → List NPath
  | .node _ _ ds => [] :: NTree.walkPathsFrom 0 ds

def NTree.walkPathsFrom : ℕ → List NTree → List NPath
  | _, [] => []
  | i, c :: cs =>
    (c.walkPaths.map (fun p => i :: p)) ++ NTree.walkPathsFrom (i+1) cs

end

/-- Paths of the leaves in walk order, mirroring `newick.Node.get_leaves`. -/
def NTree.leafPaths (t : NTree) : List NPath :=
  t.walkPaths.filter (fun p => match t.sub? p with
    | some s => s.descendants.isEmpty
    | none => false)

/-- First node (in walk order) whose name equals `label`, mirroring
`newick.Node.get_node`. -/
def NTree.getNode? (t : NTree) (label : String) : Option NPath :=
  t.walkPaths.find? (fun p => match t.sub? p with
    | some s => s.name = some label
    | none => false)

mutual

def NTree.size : NTree → ℕ
  | .node _ _ ds => 1 + NTree.sizeList ds

def NTree.sizeList : List NTree → ℕ
  | [] => 0
  | c :: cs => c.size + NTree.sizeList cs

end

/-! ### The pruning likelihood engine (likelihood.py)

`trait_state_probs(t, Q) = scipy.linalg.expm(Q * t)` is an external numerical
primitive; the engine below is parameterised by the finite-time transition
matrix function `P : branch length → row → column → entry` it produces
(numpy indexing `P[i][state]`).  The engine's control flow never
inspects the numeric values, only the tree structure, so it is generic in the
scalar field `K`. -/

inductive LikErr where
  | valueError    -- Python ValueError (max() of empty sequence, bad unpack)
  | keyError      -- Python KeyError (root likelihood never computed)
  | fuelOut       -- loop fuel exhausted (cannot happen on the inputs used)
  | missingLabel  -- tip label absent from the tree
deriving DecidableEq, Repr

/-- branch_likelihood (likelihood.py line 17):
`sum([x * P[i][state] for i, x in enumerate(tip_state_probs)])`.
The matrix `P` produced by `trait_state_probs` is modelled as its indexing
function (row, column ↦ entry). -/
def branch_likelihood {K : Type} [Field K] (P : ℚ → ℕ → ℕ → K)
    (state : ℕ) (tip_state_probs : List K) (branch_len : ℚ) : K :=
  (tip_state_probs.enum.map
    (fun ix => ix.2 * P branch_len ix.1 state)).sum

/-- node_likelihood (likelihood.py line 23): per-state product of the two
branch likelihoods. -/
def node_likelihood {K : Type} [Field K] (P : ℚ → ℕ → ℕ → K)
    (left_len right_len : ℚ) (left_state_p right_state_p : List K) : List K :=
  (List.range left_state_p.length).map (fun i =>
    branch_likelihood P i left_state_p left_len *
      branch_likelihood P i right_state_p right_len)

/-- State of the while-loop of tree_likelihood: the node queue and the
likelihood dictionary keyed by node identity (= path).  The dictionary is an
association list with most recent binding first, matching Python dict
assignment semantics for lookup. -/
structure PruneState (K : Type) where
  queue : List NPath
  likz  : List (NPath × List K)
deriving Repr

def likLookup {K : Type} : List (NPath × List K) → NPath → Option (List K)
  | [], _ => none
  | qv :: rest, p => if qv.1 = p then some qv.2 else likLookup rest p

/-- One iteration of the while-loop in tree_likelihood (likelihood.py
lines 54-63): pop a node, enqueue its ancestor if absent from the queue, and
combine the children's likelihood vectors when both are available — otherwise
the node is skipped without any effect. -/
def pruneStep {K : Type} [Field K] (P : ℚ → ℕ → ℕ → K) (tree : NTree)
    (s : PruneState K) : Except LikErr (PruneState K) :=
  match s.queue with
  | [] => .ok s
  | p :: rest =>
    let queue1 := if p ≠ [] ∧ p.dropLast ∉ rest then rest ++ [p.dropLast] else rest
    match tree.sub? p with
    | none => .error .keyError   -- unreachable: queue holds valid paths
    | some nd =>
      match nd.descendants with
      | [] => .ok ⟨queue1, s.likz⟩
      | [l, r] =>
        match likLookup s.likz (p ++ [0]), likLookup s.likz (p ++ [1]) with
        | some lv, some rv =>
            .ok ⟨queue1, (p, node_likelihood P l.blen r.blen lv rv) :: s.likz⟩
        | _, _ => .ok ⟨queue1, s.likz⟩   -- silent skip
      | _ => .error .valueError   -- `left, right = node.descendants` unpack

def pruneRun {K : Type} [Field K] (P : ℚ → ℕ → ℕ → K) (tree : NTree) :
    ℕ → PruneState K → Except LikErr (PruneState K)
  | 0, s => if s.queue.isEmpty then .ok s else .error .fuelOut
  | fuel+1, s =>
    if s.queue.isEmpty then .ok s
    else match pruneStep P tree s with
      | .ok s' => pruneRun P tree fuel s'
      | .error e => .error e

/-- Initial likelihood dictionary (likelihood.py lines 44-50): a one-hot
vector of size `n_states` for each entry of `tip_states`, attached to the
first node carrying that label. -/
def tipInit {K : Type} [Field K] (tree : NTree) (n_states : ℕ) :
    List (String × ℕ) → Except LikErr (List (NPath × List K))
  | [] => .ok []
  | (label, si) :: rest =>
    match tree.getNode? label with
    | none => .error .missingLabel
    | some p =>
      match tipInit (K := K) tree n_states rest with
      | .ok m => .ok ((p, (List.range n_states).map
          (fun i => if i = si then (1 : K) else 0)) :: m)
      | .error e => .error e

/-- tree_likelihood (likelihood.py line 34): Felsenstein's pruning algorithm.
The loop fuel `(size+1)^2` is ample for every input the repository feeds it;
exhaustion is reported as a distinguished error, never as a value. -/
def tree_likelihood {K : Type} [Field K] (P : ℚ → ℕ → ℕ → K) (tree : NTree)
    (tip_states : List (String × ℕ)) : Except LikErr K :=
  match (tip_states.map Prod.snd).max? with
  | none => .error .valueError     -- max() of an empty sequence
  | some m =>
    let n_states := m + 1
    match tipInit (K := K) tree n_states tip_states with
    | .error e => .error e
    | .ok likz0 =>
      match pruneRun P tree ((tree.size + 1) * (tree.size + 1))
          ⟨tree.leafPaths, likz0⟩ with
      | .error e => .error e
      | .ok sF =>
        match likLookup sF.likz [] with
        | none => .error .keyError
        | some v => .ok (((v.map (fun l => (1 / (n_states : K)) * l))).sum)

/-! ### The Harmon (2022) fixture

Tree `((((A:1.0,B:1.0):0.5,C:1.5):1.0,(D:0.5,E:0.5)):2.0,F:2.5)` as parsed by
the external `newick` parser (the `(D:0.5,E:0.5)` node carries no branch
length in the text, hence `none`, which the parser's `length` property turns
into `0.0`). -/

def fxA : NTree := .node (some "A") (some 1) []

def fxB : NTree := .node (some "B") (some 1) []

def fxC : NTree := .node (some "C") (some (3/2)) []

def fxD : NTree := .node (some "D") (some (1/2)) []

def fxE : NTree := .node (some "E") (some (1/2)) []

def fxF : NTree := .node (some "F") (some (5/2)) []

def fxAB : NTree := .node none (some (1/2)) [fxA, fxB]

def fxABC : NTree := .node none (some 1) [fxAB, fxC]

def fxDE : NTree := .node none none [fxD, fxE]

def fxW : NTree := .node none (some 2) [fxABC, fxDE]

def fixtureTree : NTree := .node none none [fxW, fxF]

/-- Tip states of the fixture (TEST_TIPS in the source). -/
def fixtureTips : List (String × ℕ) :=
  [("A",0),("B",1),("C",0),("D",2),("E",2),("F",1)]

/-- Modelled from the spec: `trait_state_probs(t, Q) = scipy.linalg.expm(Q*t)`
is an external numerical primitive (§4.3 of the spec: "a provided
matrix-exponential primitive").  For the fixture's 3-state equal-rate matrix
`Q` (off-diagonal 1, diagonal -2) the matrix exponential `exp(t*Q)` has the
closed form below: entries `(1+2e^(-3t))/3` on the diagonal and
`(1-e^(-3t))/3` elsewhere (write `Q = J - 3I` with `J` the all-ones matrix;
`J^2 = 3J` gives `exp(tJ) = I + (e^(3t)-1)/3 * J`, and `exp(tQ) =
e^(-3t) exp(tJ)`).  The scalar exponential is passed as the parameter `expf`
(instantiated with `Real.exp` at `K = ℝ` in the theorems) so the definition
itself stays computable. -/
def fixtureP {K : Type} [Field K] (expf : K → K) (t : ℚ) (i j : ℕ) : K :=
  if i = j then (1 + 2 * expf (-3 * (t : K))) / 3
  else (1 - expf (-3 * (t : K))) / 3

/-- Finite unrolling of the engine's while-loop: apply `pruneStep` exactly
`k` times (an observer used to examine intermediate loop states). -/
def pruneIter {K : Type} [Field K] (P : ℚ → ℕ → ℕ → K) (tree : NTree) :
    ℕ → PruneState K → Except LikErr (PruneState K)
  | 0, s => .ok s
  | k+1, s => match pruneStep P tree s with
    | .ok s' => pruneIter P tree k s'
    | .error e => .error e

/-- Tree `(A,((B,C),D))`: its breadth-first bottom-up pass dequeues the root
before the root's right child has a likelihood vector. -/
def skTree : NTree :=
  .node none none [.node (some "A") (some 1) [],
    .node none (some 1) [.node none (some 1)
      [.node (some "B") (some 1) [], .node (some "C") (some 1) []],
      .node (some "D") (some 1) []]]

def skTips : List (String × ℕ) := [("A",0),("B",1),("C",0),("D",1)]

/-- A constant transition-matrix function over ℚ, used where only the
engine's control flow (not the numerics) is under scrutiny. -/
def constP : ℚ → ℕ → ℕ → ℚ := fun _ _ _ => 1

/-! ### Arena model of the anytree object graph and tree.py

`PhyloNode` objects form a mutable graph of The `anytree.NodeMixin` kind:
each node holds a parent pointer and an ordered tuple of child pointers, kept
mutually consistent by the anytree property setters.  We model the object
store as a heap: a list of node records addressed by allocation index.
Python object identity is index equality; `id(x) == id(y)` iff the indices
are equal.  `PhyloNode.__eq__` (tree.py line 190) is structural — label,
length and recursively the children tuples — and is modelled by the
fuel-bounded `structEq2` below (the fuel, in use always the heap size, only
matters on malformed cyclic heaps on which the Python original would not
terminate either). -/

structure NodeRec where
  parent   : Option ℕ
  children : List ℕ
  label    : Option String
  length   : Option ℚ
  state    : Option ℕ
deriving DecidableEq, Repr

instance : Inhabited NodeRec := ⟨⟨none, [], none, none, none⟩⟩

abbrev Heap := List NodeRec

def getRec (h : Heap) (i : ℕ) : NodeRec := h.getD i default

def setRec (h : Heap) (i : ℕ) (r : NodeRec) : Heap := h.set i r

/-- Failures of the anytree layer and of tree.py's own checks. -/
inductive TreeErr where
  | loopError       -- anytree LoopError from a parent assignment
  | duplicateChild  -- anytree TreeError: same node twice in a children tuple
  | detachRoot      -- PhyloNodeError "Can't detach root of tree"
  | swapRoot        -- PhyloNodeError "Can't swap position of root node"
  | swapSiblings    -- PhyloNodeError "Attempt to swap siblings"
  | indexError      -- Python IndexError (siblings[0] of an only child)
  | valueError      -- Python ValueError (list.index target not found)
  | notInTree       -- PhyloNodeError "Node not in tree!"
deriving DecidableEq, Repr

/-- PhyloNode.__eq__ (tree.py line 190), comparing a node of heap `h1` with a
node of heap `h2` (two snapshots of the object store; `h1 = h2` gives plain
`==`): label and length equal and the children tuples equal, which for Python
tuples means equal length and elementwise `==`, hence the recursion. -/
def structEq2 (h1 h2 : Heap) : ℕ → ℕ → ℕ → Bool
  | 0, _, _ => false
  | fuel+1, i, j =>
    (getRec h1 i).label == (getRec h2 j).label &&
    (getRec h1 i).length == (getRec h2 j).length &&
    (getRec h1 i).children.length == (getRec h2 j).children.length &&
    ((getRec h1 i).children.zip (getRec h2 j).children).all
      (fun cd => structEq2 h1 h2 fuel cd.1 cd.2)

/-- Python `==` on two nodes of the one live heap. -/
def structEq (h : Heap) : ℕ → ℕ → ℕ → Bool := structEq2 h h

/-- The id and its ancestors, in order, as walked by anytree's
`iter_path_reverse` during loop checking. -/
def ancestorChain (h : Heap) : ℕ → ℕ → List ℕ
  | 0, _ => []
  | fuel+1, q => q :: (match (getRec h q).parent with
      | none => []
      | some r => ancestorChain h fuel r)

/-- Remove `c` from its current parent's children tuple (anytree `__detach`;
the comprehension `[child for child in parent.children if child is not self]`
filters by object identity). -/
def detachFromParent (h : Heap) (c : ℕ) : Heap :=
  match (getRec h c).parent with
  | none => h
  | some po => setRec h po
      { getRec h po with children := (getRec h po).children.filter (fun x => x ≠ c) }

/-- The anytree `parent` setter: no-op when the new parent is the same object
(`is` comparison); otherwise loop check (LoopError when the new parent is the
node itself or a descendant of it, i.e. the node occurs on the new parent's
ancestor path), detach from the old parent, and attach by appending to the
new parent's children tuple. -/
def setParent (h : Heap) (c : ℕ) (p : Option ℕ) : Except TreeErr Heap :=
  if (getRec h c).parent = p then .ok h
  else match p with
    | none =>
      let h1 := detachFromParent h c
      .ok (setRec h1 c { getRec h1 c with parent := none })
    | some q =>
      if c ∈ ancestorChain h h.length q then .error .loopError
      else
        let h1 := detachFromParent h c
        let h2 := setRec h1 c { getRec h1 c with parent := some q }
        .ok (setRec h2 q
          { getRec h2 q with children := (getRec h2 q).children ++ [c] })

/-- The anytree `children` deleter: every current child's parent becomes
`None` and the children tuple is emptied. -/
def delChildren (h : Heap) (n : ℕ) : Heap :=
  let h1 := (getRec h n).children.foldl
    (fun acc c => setRec acc c { getRec acc c with parent := none }) h
  setRec h1 n { getRec h1 n with children := [] }

def attachChildren (h : Heap) (n : ℕ) : List ℕ → Except TreeErr Heap
  | [] => .ok h
  | c :: rest => match setParent h c (some n) with
    | .ok h' => attachChildren h' n rest
    | .error e => .error e

/-- The anytree `children` setter: validate the new tuple (TreeError on a
node listed twice, by identity), detach all current children, then assign
each new child's parent in order.  (anytree restores the old children if an
exception escapes; no claim depends on the state after a failed set, so the
failure states of this model are simply discarded.) -/
def setChildren (h : Heap) (n : ℕ) (cs : List ℕ) : Except TreeErr Heap :=
  if cs.Nodup then attachChildren (delChildren h n) n cs
  else .error .duplicateChild

/-- PhyloNode.__init__ (tree.py line 64): allocate a fresh record, then run
the `parent` setter, then — only when a non-empty children sequence is given
(`if children:`) — the `children` setter. -/
def newNode (h : Heap) (parent : Option ℕ) (children : List ℕ)
    (length : Option ℚ) (label : Option String) (state : Option ℕ) :
    Except TreeErr (Heap × ℕ) :=
  let i := h.length
  let h1 := h ++ [{ parent := none, children := [], label := label,
                    length := length, state := state }]
  match setParent h1 i parent with
  | .error e => .error e
  | .ok h2 =>
    if children.isEmpty then .ok (h2, i)
    else match setChildren h2 i children with
      | .ok h3 => .ok (h3, i)
      | .error e => .error e

/-- PhyloNode.attach (tree.py line 94):
`a.children = [PhyloNode(children=a.children), b]`.  The receiver `self` is
unused by the source.  Evaluation order: the fresh wrapper node is
constructed first (its `children` setter moves `a`'s children onto it), then
`a`'s children tuple is set to the wrapper and `b`. -/
def nodeAttach (h : Heap) (a b : ℕ) : Except TreeErr Heap :=
  let cs := (getRec h a).children
  match newNode h none cs none none none with
  | .error e => .error e
  | .ok (h1, m) => setChildren h1 a [m, b]

/-- PhyloNode.detach (tree.py line 104): reject detaching a root; take the
first sibling (`subtree.siblings[0]`, IndexError when there is none); unhook
the subtree and its parent; promote the sibling to the grandparent (appended
at the end of the grandparent's children tuple); return the grandparent if
there is one, else the promoted sibling. -/
def nodeDetach (h : Heap) (s : ℕ) : Except TreeErr (Heap × ℕ) :=
  match (getRec h s).parent with
  | none => .error .detachRoot
  | some p =>
    match ((getRec h p).children.filter (fun x => x ≠ s)).head? with
    | none => .error .indexError
    | some sib =>
      let g := (getRec h p).parent
      match setParent h s none with
      | .error e => .error e
      | .ok h1 =>
        match setParent h1 p none with
        | .error e => .error e
        | .ok h2 =>
          match setParent h2 sib g with
          | .error e => .error e
          | .ok h3 => .ok (h3, match g with | some gg => gg | none => sib)

/-- `children.index(node)`: index of the first child comparing `==` (the
structural PhyloNode.__eq__) to `node`; ValueError when none does. -/
def childIndex (h : Heap) (p x : ℕ) : Option ℕ :=
  (getRec h p).children.findIdx? (fun c => structEq h h.length c x)

/-- One arm of the order-fixing loop at the end of PhyloNode.swap
(tree.py lines 134-136): if the node's current `index` in its parent differs
from the recorded one, reverse the parent's children tuple (via the
`children` setter; the net heap effect of reassigning the reversed tuple is
reversing the list, parents unchanged). -/
def fixOrder (h : Heap) (node : ℕ) (index : ℕ) : Except TreeErr Heap :=
  match (getRec h node).parent with
  | none => .error .valueError
  | some p =>
    match childIndex h p node with
    | none => .error .valueError
    | some k =>
      if k ≠ index then setChildren h p (getRec h p).children.reverse
      else .ok h

/-- PhyloNode.swap (tree.py line 121): reject when either node is a root or
when the two parents compare `==` (the structural equality — "Attempt to
swap siblings"); record the two child indices (computed by the structural
`index`), reassign the parents, then fix the child order. -/
def nodeSwap (h : Heap) (a b : ℕ) : Except TreeErr Heap :=
  match (getRec h a).parent, (getRec h b).parent with
  | none, _ => .error .swapRoot
  | _, none => .error .swapRoot
  | some pa, some pb =>
    if structEq h h.length pa pb then .error .swapSiblings
    else
      match childIndex h pa a, childIndex h pb b with
      | some ia, some ib =>
        match setParent h b (some pa) with
        | .error e => .error e
        | .ok h1 =>
          match setParent h1 a (some pb) with
          | .error e => .error e
          | .ok h2 =>
            match fixOrder h2 b ia with
            | .error e => .error e
            | .ok h3 => fixOrder h3 a ib
      | _, _ => .error .valueError

/-- PhyloNode.prune_and_regraft (tree.py line 140), with the two
`random.choice` outcomes passed explicitly: `subtree` is drawn from the
non-root preorder nodes of the receiver and `rejoinAt` from the preorder
nodes of the detach result — both constraints appear as hypotheses of the
theorems.  Returns the heap and the node returned by the method
(`detached`, on which `attach` was called). -/
def pruneAndRegraft (h : Heap) (subtree rejoinAt : ℕ) :
    Except TreeErr (Heap × ℕ) :=
  match nodeDetach h subtree with
  | .error e => .error e
  | .ok (h1, detached) =>
    match nodeAttach h1 rejoinAt subtree with
    | .error e => .error e
    | .ok h2 => .ok (h2, detached)

/-- anytree's PreOrderIter: the node, then each child's subtree in order
(fuel-bounded; fuel `h.length` suffices on acyclic heaps). -/
def preorder (h : Heap) : ℕ → ℕ → List ℕ
  | 0, _ => []
  | fuel+1, i => i :: (getRec h i).children.flatMap (fun c => preorder h fuel c)

/-- PhyloNode.is_binary (tree.py line 184): every non-leaf node of the
subtree has exactly two children. -/
def is_binary (h : Heap) (fuel i : ℕ) : Bool :=
  ((preorder h fuel i).filter (fun j => !(getRec h j).children.isEmpty)).all
    (fun j => (getRec h j).children.length == 2)

/-- anytree's `leaves` property: the preorder nodes without children. -/
def leafIds (h : Heap) (fuel i : ℕ) : List ℕ :=
  (preorder h fuel i).filter (fun j => (getRec h j).children.isEmpty)

def tipLabels (h : Heap) (fuel i : ℕ) : List (Option String) :=
  (leafIds h fuel i).map (fun j => (getRec h j).label)

/-- PhyloNode.equal (tree.py line 174), across two heap snapshots: zip the
two preorders and require pairwise `==` (each pairwise `==` already recurses
into children). -/
def treeEqual (h1 h2 : Heap) (fuel i j : ℕ) : Bool :=
  ((preorder h1 fuel i).zip (preorder h2 fuel j)).all
    (fun ab => structEq2 h1 h2 fuel ab.1 ab.2)

/-! ### PhyloNode.from_string and the PhyloTree container (tree.py) -/

/-- The `fromnode` lambda of PhyloNode.from_string (tree.py line 78):
`PhyloNode(parent=p, length=n.length, label=n.name)`.  `n.length` is the
newick accessor, hence already `0.0`-defaulted; attaching a fresh node to an
existing parent is a plain append (no loop is possible for a fresh id). -/
def allocChild (h : Heap) (pid : ℕ) (len : ℚ) (label : Option String) :
    Heap × ℕ :=
  let i := h.length
  let h1 := h ++ [{ parent := some pid, children := [], label := label,
                    length := some len, state := none }]
  (setRec h1 pid
    { getRec h1 pid with children := (getRec h1 pid).children ++ [i] }, i)

/-- The stack loop of PhyloNode.from_string (tree.py lines 81-85): pop a
parsed node, build a PhyloNode for each of its descendants in order
(attaching it to the parent at construction), and push the pairs.  The
Python list is used LIFO (append/pop at the end); the processing order only
affects allocation ids, never the structure.  Fuel: each step consumes one
parsed node, so the total parsed size suffices. -/
def buildStack : Heap → ℕ → List (NTree × ℕ) → Heap
  | h, _, [] => h
  | h, 0, _ => h
  | h, fuel+1, (t, pid) :: rest =>
    let step := t.descendants.foldl
      (fun (acc : Heap × List (NTree × ℕ)) c =>
        let hc := allocChild acc.1 pid c.blen c.name
        (hc.1, acc.2 ++ [(c, hc.2)]))
      (h, ([] : List (NTree × ℕ)))
    buildStack step.1 fuel (step.2.reverse ++ rest)

def lookupState (states : List (String × ℕ)) (s : String) : Option ℕ :=
  (states.find? (fun kv => kv.1 = s)).map (fun kv => kv.2)

/-- The state-attachment pass of PhyloNode.from_string (tree.py lines 87-90):
for every preorder node whose label is a key of `states`, set its state. -/
def attachStates (h : Heap) (states : List (String × ℕ)) : Heap :=
  (preorder h h.length 0).foldl
    (fun acc j => match (getRec acc j).label with
      | some s => match lookupState states s with
        | some v => setRec acc j { getRec acc j with state := some v }
        | none => acc
      | none => acc) h

/-- PhyloNode.from_string (tree.py line 75): build the root, run the stack
loop, attach states.  There is no shape validation of any kind: the function
is total and never raises for any parsed input. -/
def from_string (t : NTree) (states : List (String × ℕ)) : Heap × ℕ :=
  let h0 : Heap := [{ parent := none, children := [], label := t.name,
                      length := some t.blen, state := none }]
  (attachStates (buildStack h0 t.size [(t, 0)]) states, 0)

/-- The PhyloTree container (tree.py line 12). -/
structure PhyloTree where
  heap   : Heap
  root   : ℕ
  states : List (String × ℕ)
  nodes  : List ℕ
deriving Repr

/-- PhyloTree.__init__ with `nodes=None` (tree.py line 18): the node index
is the preorder of the root, computed once at construction. -/
def PhyloTree.make (h : Heap) (root : ℕ) (states : List (String × ℕ)) :
    PhyloTree :=
  ⟨h, root, states, preorder h h.length root⟩

/-- PhyloTree.from_string (tree.py line 26). -/
def PhyloTree.ofString (t : NTree) (states : List (String × ℕ)) : PhyloTree :=
  let hr := from_string t states
  PhyloTree.make hr.1 hr.2 states

/-- PhyloTree.attach (tree.py line 31): membership check of `loc` against
the stored node list — Python `in`, i.e. some stored node compares `==`
(structurally) to `loc` — then `loc.attach(loc, subtree)`. -/
def PhyloTree.attach (t : PhyloTree) (subtree loc : ℕ) :
    Except TreeErr PhyloTree :=
  if (t.nodes.all (fun n => ! structEq t.heap t.heap.length n loc)) then
    .error .notInTree
  else match nodeAttach t.heap loc subtree with
    | .ok h2 => .ok { t with heap := h2 }
    | .error e => .error e

/-- PhyloTree.detach (tree.py line 37): same membership check, then
`self.root = self.root.detach(subtree)`. -/
def PhyloTree.detach (t : PhyloTree) (subtree : ℕ) :
    Except TreeErr PhyloTree :=
  if (t.nodes.all (fun n => ! structEq t.heap t.heap.length n subtree)) then
    .error .notInTree
  else match nodeDetach t.heap subtree with
    | .ok (h2, r2) => .ok { t with heap := h2, root := r2 }
    | .error e => .error e

/-- PhyloTree.regraft (tree.py line 43): detach then attach. -/
def PhyloTree.regraft (t : PhyloTree) (subtree loc : ℕ) :
    Except TreeErr PhyloTree :=
  match t.detach subtree with
  | .ok t1 => t1.attach subtree loc
  | .error e => .error e

/-! ### The rate-parameter proposal (mcmc.py)

Each iteration of `sample` (mcmc.py line 21) draws
`qproposal = stats.uniform(qcurrent - weight / 2, qcurrent + weight / 2).rvs()`.
`scipy.stats.uniform(loc, scale)` is the uniform distribution on
`[loc, loc + scale]` — its two arguments are location and SCALE, not the two
endpoints — so `rvs()` returns `loc + scale * r` for a uniform draw
`r ∈ [0, 1]`.  The random draw `r` is passed explicitly. -/

def proposalDraw (qcurrent weight r : ℚ) : ℚ :=
  (qcurrent - weight / 2) + (qcurrent + weight / 2) * r

/-- Heap `(((A,B),C),D)` with ids 0 = root, 1 = node ABC, 2 = leaf D,
3 = node AB, 4 = leaf C, 5 = leaf A, 6 = leaf B: the parent of leaf A is an
interior node whose own parent is not the root. -/
def deepHeap : Heap := [
  ⟨none,   [1,2], none,     none,   none⟩,
  ⟨some 0, [3,4], none,     some 1, none⟩,
  ⟨some 0, [],    some "D", some 1, none⟩,
  ⟨some 1, [5,6], none,     some 1, none⟩,
  ⟨some 1, [],    some "C", some 1, none⟩,
  ⟨some 3, [],    some "A", some 1, none⟩,
  ⟨some 3, [],    some "B", some 1, none⟩]

/-- Heap for the two-leaf tree `(A,B)`: 0 = root, 1 = leaf A, 2 = leaf B. -/
def twoLeafHeap : Heap := [
  ⟨none,   [1,2], none,     none,   none⟩,
  ⟨some 0, [],    some "A", some 1, none⟩,
  ⟨some 0, [],    some "B", some 1, none⟩]

/-- Heap for the tree `((b,a),(a,b))` with duplicate leaf labels:
0 = root, 1 and 2 the two interior nodes, 3..6 the leaves.  The structural
`==` used by swap's bookkeeping cannot tell the equally-labelled leaves
apart. -/
def dupHeap : Heap := [
  ⟨none,   [1,2], none, none, none⟩,
  ⟨some 0, [3,4], none, none, none⟩,
  ⟨some 0, [5,6], none, none, none⟩,
  ⟨some 1, [],  some "b", none, none⟩,
  ⟨some 1, [],  some "a", none, none⟩,
  ⟨some 2, [],  some "a", none, none⟩,
  ⟨some 2, [],  some "b", none, none⟩]

/-- The four-leaf complete binary shape `((A3,A4),(A5,A6))` with arbitrary
labels (`M1`, `M2` on the interior nodes), branch lengths and a root label:
0 = root with children 1 and 2, leaves 3..6. -/
def quadHeap (L0 : Option String) (M1 M2 A3 A4 A5 A6 : String)
    (l0 l1 l2 l3 l4 l5 l6 : Option ℚ) : Heap := [
  ⟨none,   [1,2], L0,      l0, none⟩,
  ⟨some 0, [3,4], some M1, l1, none⟩,
  ⟨some 0, [5,6], some M2, l2, none⟩,
  ⟨some 1, [],    some A3, l3, none⟩,
  ⟨some 1, [],    some A4, l4, none⟩,
  ⟨some 2, [],    some A5, l5, none⟩,
  ⟨some 2, [],    some A6, l6, none⟩]

def triA : NTree := .node (some "A") (some 1) []

def triB : NTree := .node (some "B") (some 1) []

def triC : NTree := .node (some "C") (some 1) []

/-- The non-binary parsed input `(A,B,C)`: a root with three leaf
children. -/
def triTree : NTree := .node none none [triA, triB, triC]

/-- Every node record of the heap has zero or exactly two children: the
pointwise form of strict binarity, independent of any traversal. -/
def binaryCounts (h : Heap) : Prop :=
  ∀ j, j < h.length →
    ((getRec h j).children.length = 0 ∨ (getRec h j).children.length = 2)

/-- Mutual parent/children consistency of the object graph, as anytree
maintains it: child ids in range, no duplicate children, no node its own
child, children point back to their parent, and a node's parent lists it as
a child and does not in turn have the node as its own parent. -/
def wellFormed (h : Heap) : Prop :=
  ∀ j, j < h.length →
    ((∀ c ∈ (getRec h j).children, c < h.length) ∧
     (getRec h j).children.Nodup ∧
     j ∉ (getRec h j).children ∧
     (∀ c ∈ (getRec h j).children, (getRec h c).parent = some j) ∧
     ((getRec h j).parent = none ∨
      ∃ p, p < h.length ∧ (getRec h j).parent = some p ∧
        j ∈ (getRec h p).children ∧ (getRec h p).parent ≠ some j))

/-! ### Theorems -/

theorem getRec_setRec_self (h : Heap) (i : ℕ) (r : NodeRec) (hi : i < h.length) :
    getRec (setRec h i r) i = r := by
  simp [getRec, setRec, List.getD, List.getElem?_set_self hi]

theorem getRec_setRec_ne (h : Heap) (i j : ℕ) (r : NodeRec) (hij : i ≠ j) :
    getRec (setRec h i r) j = getRec h j := by
  simp [getRec, setRec, List.getD, List.getElem?_set_ne hij]

theorem setRec_length (h : Heap) (i : ℕ) (r : NodeRec) :
    (setRec h i r).length = h.length := by
  simp [setRec]

theorem setRec_getRec_self (h : Heap) (i : ℕ) (hi : i < h.length) :
    setRec h i (getRec h i) = h := by
  apply List.ext_getElem?
  intro n
  by_cases hn : n = i
  · subst hn
    simp [setRec, getRec, List.getElem?_set_self hi, List.getD,
      List.getElem?_eq_getElem hi]
  · simp [setRec, List.getElem?_set_ne (fun a => hn a.symm)]

/-- C1: for the fixture tree `((((A:1.0,B:1.0):0.5,C:1.5):1.0,(D:0.5,E:0.5)):2.0,F:2.5)`
with tip states A:0, B:1, C:0, D:2, E:2, F:1 and the 3-state equal-rate matrix
with off-diagonal entries 1 and diagonal entries -2 (rate parameter 1), the
whole-tree likelihood computed by the pruning engine, rounded to 4 decimal
places, equals 0.0015: the engine succeeds and its value lies in
[0.00145, 0.00155), the set of reals that round to 0.0015 at 4 decimals
(the value is ≈ 0.00150368). -/
theorem fixture_likelihood_rounds_to_0_0015 :
    ∃ v : ℝ, tree_likelihood (fixtureP Real.exp) fixtureTree fixtureTips = .ok v ∧
      (145/100000 : ℝ) ≤ v ∧ v < (155/100000 : ℝ) := by
  have hx : |(-(3/4) : ℝ)| ≤ 1 := by rw [abs_of_nonpos (by norm_num)]; norm_num
  have hw := Real.exp_bound hx (n := 10) (by norm_num)
  have hS : (∑ m ∈ Finset.range 10, (-(3/4):ℝ)^m / m.factorial) =
      554749681/1174405120 := by
    simp [Finset.sum_range_succ, Nat.factorial]
    norm_num
  have herr : |(-(3/4):ℝ)|^10 * ((10:ℕ).succ / ((10:ℕ).factorial * 10)) ≤
      8019/469762048000 := by
    rw [abs_of_nonpos (by norm_num)]
    norm_num [Nat.factorial]
  rw [hS] at hw
  have hbd := abs_sub_le_iff.mp (le_trans hw herr)
  have hw0 : (0:ℝ) ≤ Real.exp (-(3/4):ℝ) := Real.exp_nonneg _
  have hu2 : Real.exp (-(3/2):ℝ) = Real.exp (-(3/4):ℝ)^2 := by
    rw [show (-(3/2):ℝ) = (2:ℕ)*(-(3/4):ℝ) by norm_num, Real.exp_nat_mul]
  have ha : (0.223130130301 : ℝ) ≤ Real.exp (-(3/2):ℝ) := by
    rw [hu2]; nlinarith [hbd.1, hbd.2]
  have hbu : Real.exp (-(3/2):ℝ) ≤ (0.223130162556 : ℝ) := by
    rw [hu2]; nlinarith [hbd.1, hbd.2]
  set u : ℝ := Real.exp (-(3/2):ℝ) with hudef
  have h0 : (0:ℝ) ≤ u := Real.exp_nonneg _
  have ha0 : (0:ℝ) ≤ (0.223130130301 : ℝ) := by norm_num
  have p2l : (0.049787055048 : ℝ) ≤ u^2 :=
    le_trans (by norm_num) (pow_le_pow_left₀ ha0 ha 2)
  have p2u : u^2 ≤ (0.049787069443 : ℝ) :=
    le_trans (pow_le_pow_left₀ h0 hbu 2) (by norm_num)
  have p4l : (0.002478750850 : ℝ) ≤ u^4 :=
    le_trans (by norm_num) (pow_le_pow_left₀ ha0 ha 4)
  have p4u : u^4 ≤ (0.002478752284 : ℝ) :=
    le_trans (pow_le_pow_left₀ h0 hbu 4) (by norm_num)
  have p6l : (0.000123409705 : ℝ) ≤ u^6 :=
    le_trans (by norm_num) (pow_le_pow_left₀ ha0 ha 6)
  have p6u : u^6 ≤ (0.000123409813 : ℝ) :=
    le_trans (pow_le_pow_left₀ h0 hbu 6) (by norm_num)
  have p7l : (0.000027536423 : ℝ) ≤ u^7 :=
    le_trans (by norm_num) (pow_le_pow_left₀ ha0 ha 7)
  have p7u : u^7 ≤ (0.000027536452 : ℝ) :=
    le_trans (pow_le_pow_left₀ h0 hbu 7) (by norm_num)
  have p8l : (0.000006144205 : ℝ) ≤ u^8 :=
    le_trans (by norm_num) (pow_le_pow_left₀ ha0 ha 8)
  have p8u : u^8 ≤ (0.000006144213 : ℝ) :=
    le_trans (pow_le_pow_left₀ h0 hbu 8) (by norm_num)
  have p9l : (0.000001370957 : ℝ) ≤ u^9 :=
    le_trans (by norm_num) (pow_le_pow_left₀ ha0 ha 9)
  have p9u : u^9 ≤ (0.000001370960 : ℝ) :=
    le_trans (pow_le_pow_left₀ h0 hbu 9) (by norm_num)
  have p10l : (0.000000305901 : ℝ) ≤ u^10 :=
    le_trans (by norm_num) (pow_le_pow_left₀ ha0 ha 10)
  have p10u : u^10 ≤ (0.000000305903 : ℝ) :=
    le_trans (pow_le_pow_left₀ h0 hbu 10) (by norm_num)
  have p11l : (0.000000068255 : ℝ) ≤ u^11 :=
    le_trans (by norm_num) (pow_le_pow_left₀ ha0 ha 11)
  have p11u : u^11 ≤ (0.000000068257 : ℝ) :=
    le_trans (pow_le_pow_left₀ h0 hbu 11) (by norm_num)
  have p12l : (0.000000015229 : ℝ) ≤ u^12 :=
    le_trans (by norm_num) (pow_le_pow_left₀ ha0 ha 12)
  have p12u : u^12 ≤ (0.000000015230 : ℝ) :=
    le_trans (pow_le_pow_left₀ h0 hbu 12) (by norm_num)
  have hb1 : u ≤ 1 := le_trans hbu (by norm_num)
  have p14u : u^14 ≤ (0.000000000759 : ℝ) :=
    le_trans (pow_le_pow_left₀ h0 hbu 14) (by norm_num)
  have phi : ∀ k : ℕ, 14 ≤ k → u^k ≤ (0.000000000759 : ℝ) := fun k hk =>
    le_trans (pow_le_pow_of_le_one h0 hb1 hk) p14u
  have p14n : (0:ℝ) ≤ u^14 := pow_nonneg h0 14
  have p15n : (0:ℝ) ≤ u^15 := pow_nonneg h0 15
  have p17n : (0:ℝ) ≤ u^17 := pow_nonneg h0 17
  have p18n : (0:ℝ) ≤ u^18 := pow_nonneg h0 18
  have p19n : (0:ℝ) ≤ u^19 := pow_nonneg h0 19
  have p20n : (0:ℝ) ≤ u^20 := pow_nonneg h0 20
  have p21n : (0:ℝ) ≤ u^21 := pow_nonneg h0 21
  have p15u := phi 15 (by norm_num)
  have p17u := phi 17 (by norm_num)
  have p18u := phi 18 (by norm_num)
  have p19u := phi 19 (by norm_num)
  have p20u := phi 20 (by norm_num)
  have p21u := phi 21 (by norm_num)
  refine ⟨(1/729) * (1 + 2*u^2 - u^4 - 7*u^6 - 3*u^7 + 5*u^8 + 4*u^9
      - u^10 - 2*u^11 - u^12 + 2*u^14 + 7*u^15 - 5*u^17 + 2*u^18 - 4*u^19
      - 2*u^20 + 3*u^21), ?_, by linarith, by linarith⟩
  have e2 : Real.exp (-3 : ℝ) = u^2 := by
    rw [hudef, show (-3 : ℝ) = (2:ℕ) * (-(3/2):ℝ) by norm_num, Real.exp_nat_mul]
  have e1 : Real.exp (-(3 * 2⁻¹) : ℝ) = u := by rw [hudef]; norm_num
  have e3 : Real.exp (-(3 * (3/2)) : ℝ) = u^3 := by
    rw [hudef, show (-(3 * (3/2)) : ℝ) = (3:ℕ) * (-(3/2):ℝ) by norm_num, Real.exp_nat_mul]
  have e4 : Real.exp (-(3 * 2) : ℝ) = u^4 := by
    rw [hudef, show (-(3 * 2) : ℝ) = (4:ℕ) * (-(3/2):ℝ) by norm_num, Real.exp_nat_mul]
  have e5 : Real.exp (-(3 * (5/2)) : ℝ) = u^5 := by
    rw [hudef, show (-(3 * (5/2)) : ℝ) = (5:ℕ) * (-(3/2):ℝ) by norm_num, Real.exp_nat_mul]
  simp [tree_likelihood, fixtureTree, fixtureTips, fxA, fxB, fxC, fxD, fxE, fxF,
    fxAB, fxABC, fxDE, fxW, fixtureP,
    tipInit, pruneRun, pruneStep, likLookup, node_likelihood, branch_likelihood,
    NTree.leafPaths, NTree.walkPaths, NTree.walkPathsFrom, NTree.sub?, NTree.getNode?,
    NTree.size, NTree.sizeList, NTree.descendants, NTree.name, NTree.blen, NTree.lengthAttr,
    List.enum, List.enumFrom, List.range_succ]
  rw [e1, e2, e3, e4, e5]
  ring


theorem getRec_oob (h : Heap) (i : ℕ) (hi : h.length ≤ i) : getRec h i = default := by
  simp [getRec, List.getD, List.getElem?_eq_none hi]

theorem detach_return_characterization
    (h h' : Heap) (s p sib r : ℕ)
    (hsl : s < h.length) (hpl : p < h.length) (hsibl : sib < h.length)
    (hp : (getRec h s).parent = some p)
    (hsib : ((getRec h p).children.filter (fun x => x ≠ s)).head? = some sib)
    (hps : p ≠ s)
    (hpsib : sib ≠ p)
    (hsibpar : (getRec h sib).parent = some p)
    (hok : nodeDetach h s = .ok (h', r)) :
    ((getRec h p).parent = none → r = sib) ∧
    (∀ g, g < h.length → (getRec h p).parent = some g → g ≠ s → g ≠ p → g ≠ sib →
      r = g ∧ (getRec h' g).parent = (getRec h g).parent) := by
  have hsibs : sib ≠ s := by
    have hmem : sib ∈ (getRec h p).children.filter (fun x => x ≠ s) :=
      List.mem_of_mem_head? (by rw [hsib]; exact rfl)
    have := List.of_mem_filter hmem
    simpa using this
  have e1 : setParent h s none =
      .ok (setRec (setRec h p
        { getRec h p with children := (getRec h p).children.filter (fun x => x ≠ s) }) s
        { getRec h s with parent := none }) := by
    unfold setParent detachFromParent
    rw [hp]
    simp [getRec_setRec_ne _ p s _ hps]
  set Pf : NodeRec := { getRec h p with
      children := (getRec h p).children.filter (fun x => x ≠ s) } with hPf
  set H1 : Heap := setRec (setRec h p Pf) s { getRec h s with parent := none } with hH1
  have l1 : H1.length = h.length := by rw [hH1, setRec_length, setRec_length]
  have g1p : getRec H1 p = Pf := by
    rw [hH1, getRec_setRec_ne _ s p _ (Ne.symm hps), getRec_setRec_self _ _ _ hpl]
  have g1sib : getRec H1 sib = getRec h sib := by
    rw [hH1, getRec_setRec_ne _ s sib _ (Ne.symm hsibs),
      getRec_setRec_ne _ p sib _ (Ne.symm hpsib)]
  have g1other : ∀ g, g ≠ s → g ≠ p → getRec H1 g = getRec h g := by
    intro g hgs hgp
    rw [hH1, getRec_setRec_ne _ s g _ (fun e => hgs e.symm),
      getRec_setRec_ne _ p g _ (fun e => hgp e.symm)]
  have hPfparent : Pf.parent = (getRec h p).parent := by rw [hPf]
  rcases hgcase : (getRec h p).parent with _ | g
  · have e2 : setParent H1 p none = .ok H1 := by
      unfold setParent
      rw [g1p, hPfparent, hgcase]
      simp
    have e3 : setParent H1 sib none =
        .ok (setRec (setRec H1 p
          { getRec H1 p with children := (getRec H1 p).children.filter (fun x => x ≠ sib) }) sib
          { getRec H1 sib with parent := none }) := by
      unfold setParent detachFromParent
      rw [g1sib, hsibpar]
      simp [getRec_setRec_ne _ p sib _ (Ne.symm hpsib)]
      rw [g1sib]
    unfold nodeDetach at hok
    simp only [hp, hsib, hgcase, e1, e2, e3, Except.ok.injEq, Prod.mk.injEq] at hok
    refine ⟨fun _ => hok.2.symm, ?_⟩
    intro g _ hg
    exact Option.noConfusion hg
  · refine ⟨fun hnone => Option.noConfusion hnone, ?_⟩
    intro g' hg'len hg' hgs hgp hgsib
    have hg : g = g' := Option.some.inj hg'
    subst hg
    have e2 : setParent H1 p none =
        .ok (setRec (setRec H1 g
          { getRec H1 g with children := (getRec H1 g).children.filter (fun x => x ≠ p) }) p
          { getRec H1 p with parent := none }) := by
      unfold setParent detachFromParent
      rw [g1p, hPfparent, hgcase]
      simp only [reduceCtorEq, if_false]
      rw [getRec_setRec_ne _ g p _ hgp, g1p]
    set H2 : Heap := setRec (setRec H1 g
        { getRec H1 g with children := (getRec H1 g).children.filter (fun x => x ≠ p) }) p
        { getRec H1 p with parent := none } with hH2
    have l2 : H2.length = h.length := by rw [hH2, setRec_length, setRec_length, l1]
    have g2sib : getRec H2 sib = getRec h sib := by
      rw [hH2, getRec_setRec_ne _ p sib _ (Ne.symm hpsib),
        getRec_setRec_ne _ g sib _ hgsib, g1sib]
    have g2g : getRec H2 g = { getRec h g with
        children := ((getRec h g).children.filter (fun x => x ≠ p)) } := by
      rw [hH2, getRec_setRec_ne _ p g _ (Ne.symm hgp),
        getRec_setRec_self _ _ _ (l1 ▸ hg'len), g1other g hgs hgp]
    -- step 3: sibling.parent = grandparent
    unfold nodeDetach at hok
    simp only [hp, hsib, hgcase, e1, e2] at hok
    unfold setParent at hok
    rw [if_neg (show ¬ (getRec H2 sib).parent = some g from by
      rw [g2sib, hsibpar]
      exact fun e => hgp (Option.some.inj e).symm)] at hok
    dsimp only at hok
    by_cases hloop : sib ∈ ancestorChain H2 H2.length g
    · rw [if_pos hloop] at hok
      simp at hok
    · rw [if_neg hloop] at hok
      unfold detachFromParent at hok
      rw [g2sib, hsibpar] at hok
      simp only [Except.ok.injEq, Prod.mk.injEq] at hok
      refine ⟨hok.2.symm, ?_⟩
      rw [← hok.1]
      rw [getRec_setRec_self, getRec_setRec_ne _ sib g _ (Ne.symm hgsib),
        getRec_setRec_ne _ p g _ (Ne.symm hgp), g2g]
      rw [setRec_length, setRec_length, l2]
      exact hg'len


/-- C4, counterexample: in the binary tree (((A,B),C),D) (heap `deepHeap`),
detaching leaf A (id 5, whose parent id 3 is not the root and whose
grandparent id 1 is not the root either) returns node 1 — an interior node
that still has a parent (node 0, which remains the tree's root with its
children intact).  The returned reference is therefore not the tree's root,
old or new, contradicting the claim. -/
theorem detach_returns_nonroot_counterexample :
    ∃ h' : Heap, nodeDetach deepHeap 5 = .ok (h', 1) ∧
      (getRec h' 1).parent = some 0 ∧ (getRec h' 0).parent = none ∧
      (1 : ℕ) ≠ 0 :=
  ⟨_, rfl, rfl, rfl, by decide⟩

/-- Witness for the C4 amended characterization at `deepHeap`, detaching
leaf A (id 5): parent 3, sibling 6, grandparent 1. -/
theorem detach_return_characterization_witness :
    ∃ h' : Heap,
      ((getRec deepHeap 3).parent = none → (1 : ℕ) = 6) ∧
      (∀ g, g < deepHeap.length → (getRec deepHeap 3).parent = some g →
        g ≠ 5 → g ≠ 3 → g ≠ 6 →
        (1 : ℕ) = g ∧ (getRec h' g).parent = (getRec deepHeap g).parent) :=
  ⟨_, detach_return_characterization deepHeap _ 5 3 6 1 (by decide) (by decide)
    (by decide) rfl rfl (by decide) (by decide) rfl rfl⟩



/-- A node whose parent is `none` has a one-element ancestor chain. -/
theorem ancestorChain_root (H : Heap) (x n : ℕ) (hx : (getRec H x).parent = none) :
    ancestorChain H (n+1) x = [x] := by
  unfold ancestorChain
  rw [hx]

/-- Net effect of `PhyloNode.attach` at a leaf that is currently a root:
a fresh wrapper node (with the leaf's — empty — children, no label, no
length) is allocated and the leaf's children tuple becomes the wrapper
followed by the attached subtree. -/
theorem nodeAttach_leaf_root (H : Heap) (sib s : ℕ)
    (hsl : s < H.length) (hsibl : sib < H.length)
    (hss : sib ≠ s)
    (hsibleaf : (getRec H sib).children = [])
    (hsibroot : (getRec H sib).parent = none)
    (hsroot : (getRec H s).parent = none) :
    ∃ h' : Heap, nodeAttach H sib s = .ok h' ∧
      (getRec h' sib).children = [H.length, s] ∧
      getRec h' H.length = ⟨some sib, [], none, none, none⟩ ∧
      (getRec h' s).parent = some sib ∧
      (getRec h' sib).label = (getRec H sib).label ∧
      (getRec h' sib).length = (getRec H sib).length ∧
      (getRec h' s).children = (getRec H s).children ∧
      (getRec h' s).label = (getRec H s).label ∧
      (getRec h' s).length = (getRec H s).length := by
  have hms : H.length ≠ s := fun e => absurd (e ▸ hsl) (by simp)
  have hmsib : H.length ≠ sib := fun e => absurd (e ▸ hsibl) (by simp)
  have l4 : (H ++ [(⟨none, [], none, none, none⟩ : NodeRec)]).length = H.length + 1 := by
    rw [List.length_append]
    rfl
  have g4m : getRec (H ++ [(⟨none, [], none, none, none⟩ : NodeRec)]) H.length =
      (⟨none, [], none, none, none⟩ : NodeRec) := by
    rw [getRec, List.getD]
    simp
  have g4sib : getRec (H ++ [(⟨none, [], none, none, none⟩ : NodeRec)]) sib = getRec H sib :=
    List.getD_append _ _ _ _ hsibl
  have g4s : getRec (H ++ [(⟨none, [], none, none, none⟩ : NodeRec)]) s = getRec H s :=
    List.getD_append _ _ _ _ hsl
  have enew : newNode H none ((getRec H sib).children) none none none =
      .ok (H ++ [(⟨none, [], none, none, none⟩ : NodeRec)], H.length) := by
    unfold newNode
    rw [hsibleaf]
    have hnoop : setParent (H ++ [(⟨none, [], none, none, none⟩ : NodeRec)]) H.length none =
        .ok (H ++ [(⟨none, [], none, none, none⟩ : NodeRec)]) := by
      unfold setParent
      rw [g4m]
      simp
    simp [hnoop]
  -- abbreviations for the heaps after each step
  set H4 : Heap := H ++ [(⟨none, [], none, none, none⟩ : NodeRec)] with hH4
  set H5 : Heap := setRec H4 sib { getRec H4 sib with children := [] } with hH5
  have l5 : H5.length = H.length + 1 := by rw [hH5, setRec_length, hH4, l4]
  have g5sib : getRec H5 sib = { getRec H sib with children := [] } := by
    rw [hH5, getRec_setRec_self _ _ _ (by rw [hH4, l4]; omega), g4sib]
  have g5m : getRec H5 H.length = (⟨none, [], none, none, none⟩ : NodeRec) := by
    rw [hH5, getRec_setRec_ne _ sib H.length _ (Ne.symm hmsib), hH4, g4m]
  have g5s : getRec H5 s = getRec H s := by
    rw [hH5, getRec_setRec_ne _ sib s _ hss, hH4, g4s]
  have edel : delChildren H4 sib = H5 := by
    unfold delChildren
    rw [hH4, g4sib, hsibleaf]
    rfl
  -- first child: the fresh wrapper node
  have echain5 : ancestorChain H5 H5.length sib = [sib] := by
    rw [l5]
    exact ancestorChain_root _ _ _ (by rw [g5sib]; simpa using hsibroot)
  have estep1 : setParent H5 H.length (some sib) =
      .ok (setRec (setRec H5 H.length (⟨some sib, [], none, none, none⟩ : NodeRec)) sib
        { getRec H5 sib with children := (getRec H5 sib).children ++ [H.length] }) := by
    unfold setParent detachFromParent
    rw [g5m]
    rw [if_neg (show ¬ (⟨none,[],none,none,none⟩ : NodeRec).parent = some sib by simp)]
    dsimp only
    rw [echain5]
    rw [if_neg (show ¬ List.length H ∈ [sib] by simpa using hmsib)]
    rw [getRec_setRec_ne _ H.length sib _ hmsib]
    rw [g5m]
  set H6 : Heap := setRec (setRec H5 H.length (⟨some sib, [], none, none, none⟩ : NodeRec)) sib
      { getRec H5 sib with children := (getRec H5 sib).children ++ [H.length] } with hH6
  have l6 : H6.length = H.length + 1 := by rw [hH6, setRec_length, setRec_length, l5]
  have g6sib : getRec H6 sib = { getRec H sib with children := [H.length] } := by
    rw [hH6, getRec_setRec_self _ _ _ (by rw [setRec_length, l5]; omega), g5sib]
    simp
  have g6m : getRec H6 H.length = (⟨some sib, [], none, none, none⟩ : NodeRec) := by
    rw [hH6, getRec_setRec_ne _ sib H.length _ (Ne.symm hmsib),
      getRec_setRec_self _ _ _ (by rw [l5]; omega)]
  have g6s : getRec H6 s = getRec H s := by
    rw [hH6, getRec_setRec_ne _ sib s _ hss,
      getRec_setRec_ne _ H.length s _ hms, g5s]
  -- second child: the subtree s
  have echain6 : ancestorChain H6 H6.length sib = [sib] := by
    rw [l6]
    exact ancestorChain_root _ _ _ (by rw [g6sib]; simpa using hsibroot)
  have estep2 : setParent H6 s (some sib) =
      .ok (setRec (setRec H6 s { getRec H6 s with parent := some sib }) sib
        { getRec H6 sib with children := (getRec H6 sib).children ++ [s] }) := by
    unfold setParent detachFromParent
    rw [g6s]
    rw [if_neg (show ¬ (getRec H s).parent = some sib by rw [hsroot]; simp)]
    dsimp only
    rw [echain6]
    rw [if_neg (show ¬ s ∈ [sib] by simpa using Ne.symm hss)]
    rw [hsroot]
    dsimp only
    rw [getRec_setRec_ne _ s sib _ (Ne.symm hss), g6s]
  set H7 : Heap := setRec (setRec H6 s { getRec H6 s with parent := some sib }) sib
      { getRec H6 sib with children := (getRec H6 sib).children ++ [s] } with hH7
  have g7sib : getRec H7 sib = { getRec H sib with children := [H.length, s] } := by
    rw [hH7, getRec_setRec_self _ _ _ (by rw [setRec_length, l6]; omega), g6sib]
    simp
  have g7m : getRec H7 H.length = (⟨some sib, [], none, none, none⟩ : NodeRec) := by
    rw [hH7, getRec_setRec_ne _ sib H.length _ (Ne.symm hmsib),
      getRec_setRec_ne _ s H.length _ (Ne.symm hms), g6m]
  have g7s : getRec H7 s = { getRec H s with parent := some sib } := by
    rw [hH7, getRec_setRec_ne _ sib s _ hss,
      getRec_setRec_self _ _ _ (by rw [l6]; omega), g6s]
  refine ⟨H7, ?_, ?_, ?_, ?_, ?_, ?_, ?_, ?_, ?_⟩
  · unfold nodeAttach
    dsimp only
    rw [enew]
    dsimp only
    unfold setChildren
    rw [if_pos (show ([H.length, s] : List ℕ).Nodup by simp [hms])]
    rw [edel]
    unfold attachChildren
    rw [estep1]
    unfold attachChildren
    rw [estep2]
    rfl
  · rw [g7sib]
  · exact g7m
  · rw [g7s]
  · rw [g7sib]
  · rw [g7sib]
  · rw [g7s]
  · rw [g7s]
  · rw [g7s]

/-- C7, amended: detaching a child of the root and immediately re-attaching
it at its promoted (leaf) sibling — the node now occupying the detached
node's neighbourhood — does NOT reproduce the original tree: the original
parent is gone, the sibling becomes the root carrying two children, namely a
fresh node with no label and no length (wrapping the sibling's former
children) and the re-attached subtree, whose own fields are preserved. -/
theorem detach_attach_roundtrip
    (h : Heap) (s p sib : ℕ)
    (hsl : s < h.length) (hpl : p < h.length) (hsibl : sib < h.length)
    (hp : (getRec h s).parent = some p)
    (hroot : (getRec h p).parent = none)
    (hsib : ((getRec h p).children.filter (fun x => x ≠ s)).head? = some sib)
    (hps : p ≠ s)
    (hpsib : sib ≠ p)
    (hsibpar : (getRec h sib).parent = some p)
    (hsibleaf : (getRec h sib).children = []) :
    ∃ h1 h2 : Heap, nodeDetach h s = .ok (h1, sib) ∧ nodeAttach h1 sib s = .ok h2 ∧
      (getRec h2 sib).children = [h.length, s] ∧
      getRec h2 h.length = ⟨some sib, [], none, none, none⟩ ∧
      (getRec h2 s).parent = some sib ∧
      (getRec h2 sib).label = (getRec h sib).label ∧
      (getRec h2 sib).length = (getRec h sib).length ∧
      (getRec h2 s).children = (getRec h s).children ∧
      (getRec h2 s).label = (getRec h s).label ∧
      (getRec h2 s).length = (getRec h s).length := by
  have hsibs : sib ≠ s := by
    have hmem : sib ∈ (getRec h p).children.filter (fun x => x ≠ s) :=
      List.mem_of_mem_head? (by rw [hsib]; exact rfl)
    have := List.of_mem_filter hmem
    simpa using this
  -- ===== detach phase (grandparent is none) =====
  have e1 : setParent h s none =
      .ok (setRec (setRec h p
        { getRec h p with children := (getRec h p).children.filter (fun x => x ≠ s) }) s
        { getRec h s with parent := none }) := by
    unfold setParent detachFromParent
    rw [hp]
    simp [getRec_setRec_ne _ p s _ hps]
  set Pf : NodeRec := { getRec h p with
      children := (getRec h p).children.filter (fun x => x ≠ s) } with hPf
  set H1 : Heap := setRec (setRec h p Pf) s { getRec h s with parent := none } with hH1
  have l1 : H1.length = h.length := by rw [hH1, setRec_length, setRec_length]
  have g1p : getRec H1 p = Pf := by
    rw [hH1, getRec_setRec_ne _ s p _ (Ne.symm hps), getRec_setRec_self _ _ _ hpl]
  have g1s : getRec H1 s = { getRec h s with parent := none } := by
    rw [hH1, getRec_setRec_self _ _ _ (by rw [setRec_length]; exact hsl)]
  have g1sib : getRec H1 sib = getRec h sib := by
    rw [hH1, getRec_setRec_ne _ s sib _ (Ne.symm hsibs),
      getRec_setRec_ne _ p sib _ (Ne.symm hpsib)]
  have e2 : setParent H1 p none = .ok H1 := by
    unfold setParent
    rw [g1p, show Pf.parent = (getRec h p).parent from rfl, hroot]
    simp
  have e3 : setParent H1 sib none =
      .ok (setRec (setRec H1 p
        { getRec H1 p with children := (getRec H1 p).children.filter (fun x => x ≠ sib) }) sib
        { getRec H1 sib with parent := none }) := by
    unfold setParent detachFromParent
    rw [g1sib, hsibpar]
    simp [getRec_setRec_ne _ p sib _ (Ne.symm hpsib)]
    rw [g1sib]
  set H3 : Heap := setRec (setRec H1 p
      { getRec H1 p with children := (getRec H1 p).children.filter (fun x => x ≠ sib) }) sib
      { getRec H1 sib with parent := none } with hH3
  have edetach : nodeDetach h s = .ok (H3, sib) := by
    unfold nodeDetach
    simp only [hp, hsib, hroot, e1, e2, e3]
  have l3 : H3.length = h.length := by rw [hH3, setRec_length, setRec_length, l1]
  have g3sib : getRec H3 sib = { getRec h sib with parent := none } := by
    rw [hH3, getRec_setRec_self _ _ _ (by rw [setRec_length, l1]; exact hsibl), g1sib]
  have g3s : getRec H3 s = { getRec h s with parent := none } := by
    rw [hH3, getRec_setRec_ne _ sib s _ hsibs,
      getRec_setRec_ne _ p s _ hps, g1s]
  -- ===== attach phase =====
  obtain ⟨h2, ea, c1, c2, c3, c4, c5, c6, c7, c8⟩ :=
    nodeAttach_leaf_root H3 sib s (l3 ▸ hsl) (l3 ▸ hsibl) hsibs
      (by rw [g3sib]; exact hsibleaf)
      (by rw [g3sib])
      (by rw [g3s])
  refine ⟨H3, h2, edetach, ea, l3 ▸ c1, l3 ▸ c2, c3, ?_, ?_, ?_, ?_, ?_⟩
  · rw [c4, g3sib]
  · rw [c5, g3sib]
  · rw [c6, g3s]
  · rw [c7, g3s]
  · rw [c8, g3s]


/-- C7, counterexample: on the two-leaf tree (A,B), detaching leaf A and
re-attaching it at the promoted sibling B produces a tree that is not
structurally equal to the original (PhyloNode.equal is false) and whose tip
labels changed from [A, B] to [unlabeled, A]. -/
theorem detach_attach_not_equal_counterexample :
    ∃ (h1 : Heap) (r : ℕ) (h2 : Heap),
      nodeDetach twoLeafHeap 1 = .ok (h1, r) ∧
      nodeAttach h1 r 1 = .ok h2 ∧
      treeEqual h2 twoLeafHeap h2.length r 0 = false ∧
      tipLabels h2 h2.length r ≠ tipLabels twoLeafHeap twoLeafHeap.length 0 :=
  ⟨_, _, _, rfl, rfl, rfl, by decide⟩

/-- Witness for the C7 amended round-trip characterization on the two-leaf
tree (A,B): s = 1 (leaf A), parent 0 (the root), sibling 2 (leaf B). -/
theorem detach_attach_roundtrip_witness :
    ∃ h1 h2 : Heap, nodeDetach twoLeafHeap 1 = .ok (h1, 2) ∧
      nodeAttach h1 2 1 = .ok h2 ∧
      (getRec h2 2).children = [twoLeafHeap.length, 1] ∧
      getRec h2 twoLeafHeap.length = ⟨some 2, [], none, none, none⟩ ∧
      (getRec h2 1).parent = some 2 ∧
      (getRec h2 2).label = (getRec twoLeafHeap 2).label ∧
      (getRec h2 2).length = (getRec twoLeafHeap 2).length ∧
      (getRec h2 1).children = (getRec twoLeafHeap 1).children ∧
      (getRec h2 1).label = (getRec twoLeafHeap 1).label ∧
      (getRec h2 1).length = (getRec twoLeafHeap 1).length :=
  detach_attach_roundtrip twoLeafHeap 1 0 2 (by decide) (by decide) (by decide)
    rfl rfl rfl (by decide) (by decide) rfl rfl

/-- C2, counterexample: on the tree `(A,((B,C),D))` the pruning pass reaches
(dequeues) the root while the root's right child has no computed likelihood
vector, silently skips it (the likelihood store is unchanged and no error is
raised), and the whole computation nevertheless returns a value — so the
engine does not fail with a LikelihoodError in this situation (indeed no such
error exists in the code). -/
theorem likelihood_no_error_on_unready_children :
    ∃ (likz0 : List (NPath × List ℚ)) (s4 s5 : PruneState ℚ) (v : ℚ),
      tipInit (K := ℚ) skTree 2 skTips = .ok likz0 ∧
      pruneIter constP skTree 4 ⟨skTree.leafPaths, likz0⟩ = .ok s4 ∧
      s4.queue.head? = some [] ∧
      likLookup s4.likz ([] ++ [0]) ≠ none ∧
      likLookup s4.likz ([] ++ [1]) = none ∧
      pruneStep constP skTree s4 = .ok s5 ∧
      s5.likz = s4.likz ∧
      tree_likelihood constP skTree skTips = .ok v :=
  ⟨_, _, _, _, rfl, rfl, rfl, by decide, rfl, rfl, rfl, rfl⟩

/-- C2, amended: when the pruning pass dequeues a node with two children
whose likelihood vectors are not both already computed, it does not fail —
the step succeeds and leaves the likelihood store unchanged (the node is
silently skipped, to be revisited only if re-enqueued later); the engine has
no LikelihoodError at all. -/
theorem pruneStep_skips_unready_node {K : Type} [Field K]
    (P : ℚ → ℕ → ℕ → K) (tree : NTree) (s : PruneState K)
    (p : NPath) (rest : List NPath) (nd l r : NTree)
    (hq : s.queue = p :: rest)
    (hsub : tree.sub? p = some nd)
    (hds : nd.descendants = [l, r])
    (hmiss : likLookup s.likz (p ++ [0]) = none ∨
             likLookup s.likz (p ++ [1]) = none) :
    ∃ q1 : List NPath, pruneStep P tree s = .ok ⟨q1, s.likz⟩ := by
  refine ⟨if p ≠ [] ∧ p.dropLast ∉ rest then rest ++ [p.dropLast] else rest, ?_⟩
  unfold pruneStep
  rw [hq]
  simp only [hsub, hds]
  rcases hmiss with h | h <;> rcases hl : likLookup s.likz (p ++ [0]) with _ | lv <;>
    rcases hr : likLookup s.likz (p ++ [1]) with _ | rv <;>
      simp_all

/-- Witness for the amended C2 theorem at the concrete skip state of
`skTree`. -/
theorem pruneStep_skips_unready_node_witness :
    ∃ q1 : List NPath, pruneStep constP skTree
      ⟨[[], [1,0], [1]],
        [([1,1], [0,1]), ([1,0,1], [1,0]), ([1,0,0], [0,1]), ([0], [1,0])]⟩ =
      .ok ⟨q1, [([1,1], [0,1]), ([1,0,1], [1,0]), ([1,0,0], [0,1]), ([0], [1,0])]⟩ :=
  pruneStep_skips_unready_node constP skTree _ [] [[1,0],[1]]
    skTree (NTree.node (some "A") (some 1) [])
    (NTree.node none (some 1) [NTree.node none (some 1)
      [NTree.node (some "B") (some 1) [], NTree.node (some "C") (some 1) []],
      NTree.node (some "D") (some 1) []])
    rfl rfl rfl (Or.inr rfl)

/-- C9, counterexample: with current value 9/10, proposal width 1/5 and the
valid uniform draw r = 9/10, the proposed value is 17/10, far outside the
claimed interval [Qcurrent - w/2, Qcurrent + w/2] = [8/10, 1] — because the
code passes `qcurrent + weight/2` as scipy's SCALE argument, not as the upper
endpoint. -/
theorem proposal_outside_claimed_interval :
    (0 ≤ (9/10 : ℚ) ∧ (9/10 : ℚ) ≤ 1) ∧
      ¬ proposalDraw (9/10) (1/5) (9/10) ≤ 9/10 + (1/5)/2 := by
  norm_num [proposalDraw]

/-- C9, amended: the proposal is uniform on
[Qcurrent - w/2, (Qcurrent - w/2) + (Qcurrent + w/2)] = [Qcurrent - w/2, 2·Qcurrent]
(scipy's loc/scale convention), provided the scale `Qcurrent + w/2` is
non-negative; it is not centered on Qcurrent with width w. -/
theorem proposal_support (qc w r : ℚ) (hr0 : 0 ≤ r) (hr1 : r ≤ 1)
    (hs : 0 ≤ qc + w / 2) :
    qc - w / 2 ≤ proposalDraw qc w r ∧ proposalDraw qc w r ≤ 2 * qc := by
  unfold proposalDraw
  constructor <;> nlinarith

/-- Witness for the amended C9 support theorem at Qcurrent = 1/2, w = 1/5,
r = 1/2. -/
theorem proposal_support_witness :
    1/2 - (1/5) / 2 ≤ proposalDraw (1/2) (1/5) (1/2) ∧
      proposalDraw (1/2) (1/5) (1/2) ≤ 2 * (1/2) :=
  proposal_support (1/2) (1/5) (1/2) (by norm_num) (by norm_num) (by norm_num)

/-! ### Lemmas and theorems for from_string (C8) -/

theorem NTree.size_pos (t : NTree) : 1 ≤ t.size := by
  match t with
  | .node n l ds => rw [NTree.size]; omega

theorem sizeList_eq_sum_map (ds : List NTree) :
    NTree.sizeList ds = (ds.map NTree.size).sum := by
  induction ds with
  | nil => rfl
  | cons c cs ih => rw [NTree.sizeList, ih, List.map_cons, List.sum_cons]

theorem allocChild_fst_length (h : Heap) (pid : ℕ) (len : ℚ) (label : Option String) :
    (allocChild h pid len label).1.length = h.length + 1 := by
  rw [allocChild, setRec_length, List.length_append]
  rfl

theorem buildFold_spec (pid : ℕ) (ds : List NTree) :
    ∀ (h : Heap) (acc : List (NTree × ℕ)),
    (ds.foldl (fun (acc : Heap × List (NTree × ℕ)) c =>
        let hc := allocChild acc.1 pid c.blen c.name
        (hc.1, acc.2 ++ [(c, hc.2)])) (h, acc)).1.length = h.length + ds.length ∧
    ((ds.foldl (fun (acc : Heap × List (NTree × ℕ)) c =>
        let hc := allocChild acc.1 pid c.blen c.name
        (hc.1, acc.2 ++ [(c, hc.2)])) (h, acc)).2.map (fun e => e.1.size)) =
      acc.map (fun e => e.1.size) ++ ds.map NTree.size ∧
    (ds.foldl (fun (acc : Heap × List (NTree × ℕ)) c =>
        let hc := allocChild acc.1 pid c.blen c.name
        (hc.1, acc.2 ++ [(c, hc.2)])) (h, acc)).2.length = acc.length + ds.length := by
  induction ds with
  | nil => intro h acc; refine ⟨rfl, by simp, rfl⟩
  | cons c cs ih =>
    intro h acc
    rw [List.foldl_cons]
    obtain ⟨ih1, ih2, ih3⟩ := ih (allocChild h pid c.blen c.name).1
      (acc ++ [(c, (allocChild h pid c.blen c.name).2)])
    refine ⟨?_, ?_, ?_⟩
    · rw [ih1, allocChild_fst_length]; simp only [List.length_cons]; omega
    · rw [ih2]; simp
    · rw [ih3]; simp only [List.length_append, List.length_cons, List.length_nil]; omega

theorem buildStack_spec : ∀ (fuel : ℕ) (stack : List (NTree × ℕ)) (h : Heap),
    (stack.map (fun e => e.1.size)).sum ≤ fuel →
    (buildStack h fuel stack).length + stack.length =
      h.length + (stack.map (fun e => e.1.size)).sum := by
  intro fuel
  induction fuel with
  | zero =>
    intro stack h hle
    match stack with
    | [] => simp [buildStack]
    | (t, pid) :: rest =>
      exfalso
      have h1 := NTree.size_pos t
      simp [List.map_cons, List.sum_cons] at hle
      omega
  | succ fuel ih =>
    intro stack h hle
    match stack with
    | [] => simp [buildStack]
    | (t, pid) :: rest =>
      have hstep : buildStack h (fuel+1) ((t, pid) :: rest) =
          buildStack (t.descendants.foldl (fun (acc : Heap × List (NTree × ℕ)) c =>
              let hc := allocChild acc.1 pid c.blen c.name
              (hc.1, acc.2 ++ [(c, hc.2)])) (h, ([] : List (NTree × ℕ)))).1 fuel
            (((t.descendants.foldl (fun (acc : Heap × List (NTree × ℕ)) c =>
              let hc := allocChild acc.1 pid c.blen c.name
              (hc.1, acc.2 ++ [(c, hc.2)])) (h, ([] : List (NTree × ℕ)))).2).reverse ++ rest) := rfl
      obtain ⟨hf1, hf2, hf3⟩ := buildFold_spec pid t.descendants h []
      have hsz : t.size = 1 + (t.descendants.map NTree.size).sum := by
        match t with
        | .node n l ds =>
          rw [NTree.size, NTree.descendants, sizeList_eq_sum_map]
      rw [hstep]
      generalize hF : (t.descendants.foldl (fun (acc : Heap × List (NTree × ℕ)) c =>
          let hc := allocChild acc.1 pid c.blen c.name
          (hc.1, acc.2 ++ [(c, hc.2)])) (h, ([] : List (NTree × ℕ)))) = F
        at hf1 hf2 hf3 ⊢
      have hsum : (((F.2.reverse ++ rest)).map (fun e => e.1.size)).sum =
            (t.descendants.map NTree.size).sum + (rest.map (fun e => e.1.size)).sum := by
        rw [List.map_append, List.sum_append, List.map_reverse, List.sum_reverse, hf2]
        simp
      have hle2 : (((F.2.reverse ++ rest)).map (fun e => e.1.size)).sum ≤ fuel := by
        rw [hsum]
        simp only [List.map_cons, List.sum_cons] at hle
        omega
      have hrec := ih (F.2.reverse ++ rest) F.1 hle2
      have hlen : (F.2.reverse ++ rest).length = t.descendants.length + rest.length := by
        rw [List.length_append, List.length_reverse, hf3]
        simp
      simp only [List.map_cons, List.sum_cons, List.length_cons]
      omega

theorem attachStep_length (states : List (String × ℕ)) (acc : Heap) (j : ℕ) :
    (match (getRec acc j).label with
      | some s => match lookupState states s with
        | some v => setRec acc j { getRec acc j with state := some v }
        | none => acc
      | none => acc).length = acc.length := by
  split
  · split
    · simp [setRec_length]
    · rfl
  · rfl

theorem attachFold_length (states : List (String × ℕ)) :
    ∀ (l : List ℕ) (h : Heap),
    (l.foldl (fun acc j => match (getRec acc j).label with
      | some s => match lookupState states s with
        | some v => setRec acc j { getRec acc j with state := some v }
        | none => acc
      | none => acc) h).length = h.length := by
  intro l
  induction l with
  | nil => intro h; rfl
  | cons j rest ih =>
    intro h
    rw [List.foldl_cons, ih, attachStep_length]

theorem attachStates_length (h : Heap) (states : List (String × ℕ)) :
    (attachStates h states).length = h.length := by
  rw [attachStates, attachFold_length]

/-- C8: PhyloNode.from_string performs no shape validation at all: for EVERY
parsed input tree (binary or not) and any tip-state list it succeeds,
returning a heap with exactly one PhyloNode record per parsed node and the
root at id 0; no StructureError (or any error) exists on this path. -/
theorem from_string_total_one_record_per_node (t : NTree) (states : List (String × ℕ)) :
    (from_string t states).1.length = t.size ∧ (from_string t states).2 = 0 := by
  constructor
  · rw [from_string]
    dsimp only
    rw [attachStates_length]
    have := buildStack_spec t.size [(t, 0)]
      [{ parent := none, children := [], label := t.name,
         length := some t.blen, state := none }]
      (by simp [List.map_cons, List.sum_cons])
    simp [List.map_cons, List.sum_cons] at this
    omega
  · rfl

/-- C8, counterexample: building from the non-binary parsed tree `(A,B,C)`
does not fail: it yields one record per node with the root holding three
children, on which is_binary is false and the three tips are intact. -/
theorem from_string_accepts_nonbinary :
    (from_string triTree []).1.length = 4 ∧
    (getRec (from_string triTree []).1 0).children.length = 3 ∧
    is_binary (from_string triTree []).1 4 0 = false ∧
    tipLabels (from_string triTree []).1 4 0 = [some "A", some "B", some "C"] :=
  ⟨rfl, rfl, rfl, rfl⟩

theorem from_string_total_one_record_per_node_witness :
    (from_string triTree []).1.length = triTree.size ∧
    (from_string triTree []).2 = 0 :=
  from_string_total_one_record_per_node triTree []


/-! ### The frozen node index of PhyloTree (C10) -/

/-- C10: the PhyloTree node index is computed once at construction and is
never updated by attach, detach or regraft (each returns `{t with ...}`
keeping `nodes`); consequently, on the two-leaf tree the wrapper node created
by a successful attach is rejected as `notInTree` by the next attach, while
on the deep tree a node that was already detached still passes the membership
check and reaches detach's own root test (`detachRoot`), not `notInTree`. -/
theorem nodes_index_frozen :
    (∀ (t : PhyloTree) (s l : ℕ) (t' : PhyloTree),
        PhyloTree.attach t s l = .ok t' → t'.nodes = t.nodes) ∧
    (∀ (t : PhyloTree) (s : ℕ) (t' : PhyloTree),
        PhyloTree.detach t s = .ok t' → t'.nodes = t.nodes) ∧
    (∀ (t : PhyloTree) (s l : ℕ) (t' : PhyloTree),
        PhyloTree.regraft t s l = .ok t' → t'.nodes = t.nodes) ∧
    ((PhyloTree.make twoLeafHeap 0 []).attach 2 1).map PhyloTree.nodes
      = .ok [0, 1, 2] ∧
    ((PhyloTree.make twoLeafHeap 0 []).attach 2 1).bind
      (fun t1 => t1.attach 2 3) = .error .notInTree ∧
    ((PhyloTree.make deepHeap 0 []).detach 5).map PhyloTree.root = .ok 1 ∧
    ((PhyloTree.make deepHeap 0 []).detach 5).bind
      (fun t3 => t3.detach 5) = .error .detachRoot := by
  have hatt : ∀ (t : PhyloTree) (s l : ℕ) (t' : PhyloTree),
      PhyloTree.attach t s l = .ok t' → t'.nodes = t.nodes := by
    intro t s l t' hok
    rw [PhyloTree.attach] at hok
    split at hok
    · cases hok
    · split at hok
      · cases hok; rfl
      · cases hok
  have hdet : ∀ (t : PhyloTree) (s : ℕ) (t' : PhyloTree),
      PhyloTree.detach t s = .ok t' → t'.nodes = t.nodes := by
    intro t s t' hok
    rw [PhyloTree.detach] at hok
    split at hok
    · cases hok
    · split at hok
      · cases hok; rfl
      · cases hok
  refine ⟨hatt, hdet, ?_, rfl, rfl, rfl, rfl⟩
  intro t s l t' hok
  rw [PhyloTree.regraft] at hok
  split at hok
  case _ t1 h1 =>
    have e1 := hdet t s t1 h1
    have e2 := hatt t1 s l t' hok
    rw [e2, e1]
  case _ => cases hok

/-! ### Swap as an involution (C6) -/

/-- C6, counterexample: on the duplicate-label tree `((b,a),(a,b))` the two
chosen nodes 4 and 6 are non-root and non-siblings (their parents differ
structurally), both swaps succeed, yet the double application is NOT
structurally equal to the original tree: the `children.index` bookkeeping
confuses equally-labelled nodes and reverses the wrong sibling pairs. -/
theorem swap_twice_structurally_unequal :
    (getRec dupHeap 4).parent = some 1 ∧ (getRec dupHeap 6).parent = some 2 ∧
    structEq dupHeap 7 1 2 = false ∧
    ((nodeSwap dupHeap 4 6).bind (fun h1 => nodeSwap h1 4 6)).map
      (fun h2 => treeEqual h2 dupHeap 7 0 0) = .ok false :=
  ⟨rfl, rfl, rfl, rfl⟩

/-- C6: on the four-leaf shape with pairwise-distinct labels where they are
compared (interior labels distinct, and each leaf distinguishable from its
swap partner's siblings), swapping the two cousin leaves 4 and 5 twice
restores the heap EXACTLY — swap is an involution whenever structural
equality cannot confuse distinct nodes; branch lengths and the root label
are arbitrary. -/
theorem swap_involution_on_distinct_labels (L0 : Option String) (M1 M2 A3 A4 A5 A6 : String)
    (l0 l1 l2 l3 l4 l5 l6 : Option ℚ)
    (hm : M1 ≠ M2) (h34 : A3 ≠ A4) (h35 : A3 ≠ A5)
    (h64 : A6 ≠ A4) (h65 : A6 ≠ A5) :
    (nodeSwap (quadHeap L0 M1 M2 A3 A4 A5 A6 l0 l1 l2 l3 l4 l5 l6) 4 5).bind
      (fun h1 => nodeSwap h1 4 5) =
      .ok (quadHeap L0 M1 M2 A3 A4 A5 A6 l0 l1 l2 l3 l4 l5 l6) := by
  have e1 : (M1 == M2) = false := by simp [hm]
  have e2 : (M2 == M1) = false := by simp [Ne.symm hm]
  have e3 : (A3 == A4) = false := by simp [h34]
  have e4 : (A4 == A3) = false := by simp [Ne.symm h34]
  have e5 : (A3 == A5) = false := by simp [h35]
  have e6 : (A5 == A3) = false := by simp [Ne.symm h35]
  have e7 : (A6 == A4) = false := by simp [h64]
  have e8 : (A4 == A6) = false := by simp [Ne.symm h64]
  have e9 : (A6 == A5) = false := by simp [h65]
  have e10 : (A5 == A6) = false := by simp [Ne.symm h65]
  simp [nodeSwap, setParent, detachFromParent, setChildren, attachChildren,
    delChildren, fixOrder, childIndex, structEq, structEq2, ancestorChain,
    getRec, setRec, quadHeap, Except.bind, e1, e2, e3, e4, e5, e6, e7, e8, e9, e10]

theorem swap_involution_on_distinct_labels_witness :
    (nodeSwap (quadHeap none "m1" "m2" "A" "B" "C" "D"
        none none none none none none none) 4 5).bind
      (fun h1 => nodeSwap h1 4 5) =
      .ok (quadHeap none "m1" "m2" "A" "B" "C" "D"
        none none none none none none none) :=
  swap_involution_on_distinct_labels none "m1" "m2" "A" "B" "C" "D"
    none none none none none none none (by decide) (by decide) (by decide)
    (by decide) (by decide)


/-! ### Binarity preservation of the topology operators (C3) -/

theorem counts_all (h : Heap) (hbin : binaryCounts h) (j : ℕ) :
    (getRec h j).children.length = 0 ∨ (getRec h j).children.length = 2 := by
  by_cases hj : j < h.length
  · exact hbin j hj
  · left
    rw [getRec_oob h j (Nat.le_of_not_lt hj)]
    rfl

theorem binaryCounts_is_binary (h : Heap) (hbin : binaryCounts h) :
    ∀ fuel i, is_binary h fuel i = true := by
  intro fuel i
  rw [is_binary, List.all_eq_true]
  intro j hj
  rw [List.mem_filter] at hj
  rcases counts_all h hbin j with h0 | h2
  · exfalso
    have hnil : (getRec h j).children = [] := List.length_eq_zero.mp h0
    have := hj.2
    rw [hnil] at this
    simp at this
  · simp [h2]

theorem setParent_noop (h : Heap) (c : ℕ) (p : Option ℕ)
    (hpar : (getRec h c).parent = p) : setParent h c p = .ok h := by
  unfold setParent
  rw [if_pos hpar]

theorem setParent_toNone_spec (h : Heap) (c po : ℕ) (h' : Heap)
    (hok : setParent h c none = .ok h') (hpar : (getRec h c).parent = some po)
    (hclen : c < h.length) (hpolen : po < h.length) (hcpo : c ≠ po) :
    getRec h' c = { getRec h c with parent := none } ∧
    getRec h' po = { getRec h po with
      children := (getRec h po).children.filter (fun x => x ≠ c) } ∧
    (∀ j, j ≠ c → j ≠ po → getRec h' j = getRec h j) ∧
    h'.length = h.length := by
  unfold setParent at hok
  rw [if_neg (by rw [hpar]; exact fun hcon => Option.noConfusion hcon)] at hok
  dsimp only at hok
  rw [detachFromParent, hpar] at hok
  dsimp only at hok
  injection hok with hh
  subst hh
  have hgc : getRec (setRec h po { getRec h po with
      children := (getRec h po).children.filter (fun x => x ≠ c) }) c = getRec h c :=
    getRec_setRec_ne h po c _ (Ne.symm hcpo)
  rw [hgc]
  refine ⟨?_, ?_, ?_, ?_⟩
  · exact getRec_setRec_self _ c _ (by rw [setRec_length]; exact hclen)
  · rw [getRec_setRec_ne _ c po _ hcpo]
    exact getRec_setRec_self h po _ hpolen
  · intro j hjc hjpo
    rw [getRec_setRec_ne _ c j _ (Ne.symm hjc),
        getRec_setRec_ne _ po j _ (Ne.symm hjpo)]
  · rw [setRec_length, setRec_length]

theorem setParent_fromNone_spec (h : Heap) (c q : ℕ) (h' : Heap)
    (hok : setParent h c (some q) = .ok h') (hpar : (getRec h c).parent = none)
    (hclen : c < h.length) (hqlen : q < h.length) (hcq : c ≠ q) :
    getRec h' c = { getRec h c with parent := some q } ∧
    getRec h' q = { getRec h q with
      children := (getRec h q).children ++ [c] } ∧
    (∀ j, j ≠ c → j ≠ q → getRec h' j = getRec h j) ∧
    h'.length = h.length := by
  unfold setParent at hok
  rw [if_neg (by rw [hpar]; exact fun hcon => Option.noConfusion hcon)] at hok
  dsimp only at hok
  split at hok
  · cases hok
  · rw [detachFromParent, hpar] at hok
    dsimp only at hok
    injection hok with hh
    subst hh
    have hgq : getRec (setRec h c { getRec h c with parent := some q }) q =
        getRec h q := getRec_setRec_ne h c q _ hcq
    rw [hgq]
    refine ⟨?_, ?_, ?_, ?_⟩
    · rw [getRec_setRec_ne _ q c _ (Ne.symm hcq)]
      exact getRec_setRec_self h c _ hclen
    · exact getRec_setRec_self _ q _ (by rw [setRec_length]; exact hqlen)
    · intro j hjc hjq
      rw [getRec_setRec_ne _ q j _ (Ne.symm hjq),
          getRec_setRec_ne _ c j _ (Ne.symm hjc)]
    · rw [setRec_length, setRec_length]

theorem setParent_move_spec (h : Heap) (c po q : ℕ) (h' : Heap)
    (hok : setParent h c (some q) = .ok h') (hpar : (getRec h c).parent = some po)
    (hpoq : po ≠ q) (hclen : c < h.length) (hpolen : po < h.length)
    (hqlen : q < h.length) (hcpo : c ≠ po) (hcq : c ≠ q) :
    getRec h' c = { getRec h c with parent := some q } ∧
    getRec h' po = { getRec h po with
      children := (getRec h po).children.filter (fun x => x ≠ c) } ∧
    getRec h' q = { getRec h q with
      children := (getRec h q).children ++ [c] } ∧
    (∀ j, j ≠ c → j ≠ po → j ≠ q → getRec h' j = getRec h j) ∧
    h'.length = h.length := by
  unfold setParent at hok
  rw [if_neg (by rw [hpar]; exact fun hcon => hpoq (Option.some.inj hcon))] at hok
  dsimp only at hok
  split at hok
  · cases hok
  · rw [detachFromParent, hpar] at hok
    dsimp only at hok
    injection hok with hh
    subst hh
    have hgc : getRec (setRec h po { getRec h po with
        children := (getRec h po).children.filter (fun x => x ≠ c) }) c =
        getRec h c := getRec_setRec_ne h po c _ (Ne.symm hcpo)
    rw [hgc]
    have hgq : getRec (setRec (setRec h po { getRec h po with
        children := (getRec h po).children.filter (fun x => x ≠ c) }) c
        { getRec h c with parent := some q }) q =
        getRec h q := by
      rw [getRec_setRec_ne _ c q _ hcq, getRec_setRec_ne _ po q _ hpoq]
    rw [hgq]
    refine ⟨?_, ?_, ?_, ?_, ?_⟩
    · rw [getRec_setRec_ne _ q c _ (Ne.symm hcq)]
      exact getRec_setRec_self _ c _ (by rw [setRec_length]; exact hclen)
    · rw [getRec_setRec_ne _ q po _ (Ne.symm hpoq),
          getRec_setRec_ne _ c po _ hcpo]
      exact getRec_setRec_self h po _ hpolen
    · exact getRec_setRec_self _ q _ (by rw [setRec_length, setRec_length]; exact hqlen)
    · intro j hjc hjpo hjq
      rw [getRec_setRec_ne _ q j _ (Ne.symm hjq),
          getRec_setRec_ne _ c j _ (Ne.symm hjc),
          getRec_setRec_ne _ po j _ (Ne.symm hjpo)]
    · rw [setRec_length, setRec_length, setRec_length]

theorem parentClear_fold_spec (l : List ℕ) : ∀ (h : Heap), l.Nodup →
    (∀ c ∈ l, c < h.length) →
    ((∀ c ∈ l, getRec (l.foldl (fun acc c =>
        setRec acc c { getRec acc c with parent := none }) h) c =
        { getRec h c with parent := none }) ∧
     (∀ j, j ∉ l → getRec (l.foldl (fun acc c =>
        setRec acc c { getRec acc c with parent := none }) h) j = getRec h j) ∧
     (l.foldl (fun acc c =>
        setRec acc c { getRec acc c with parent := none }) h).length = h.length) := by
  induction l with
  | nil =>
    intro h _ _
    exact ⟨fun c hc => absurd hc (List.not_mem_nil c), fun j _ => rfl, rfl⟩
  | cons c cs ih =>
    intro h hnodup hbound
    rw [List.nodup_cons] at hnodup
    have hclen : c < h.length := hbound c (List.mem_cons_self c cs)
    obtain ⟨ih1, ih2, ih3⟩ := ih (setRec h c { getRec h c with parent := none })
      hnodup.2 (by intro c' hc'; rw [setRec_length]; exact hbound c' (List.mem_cons_of_mem c hc'))
    rw [List.foldl_cons]
    refine ⟨?_, ?_, ?_⟩
    · intro c' hc'
      rcases List.mem_cons.mp hc' with hh | hh
      · subst hh
        rw [ih2 c' hnodup.1]
        exact getRec_setRec_self h c' _ hclen
      · rw [ih1 c' hh, getRec_setRec_ne h c c' _ (by rintro rfl; exact hnodup.1 hh)]
    · intro j hj
      rw [List.mem_cons, not_or] at hj
      rw [ih2 j hj.2, getRec_setRec_ne h c j _ (Ne.symm hj.1)]
    · rw [ih3, setRec_length]

theorem delChildren_spec (h : Heap) (n : ℕ) (hn : n < h.length)
    (hbound : ∀ c ∈ (getRec h n).children, c < h.length)
    (hnodup : (getRec h n).children.Nodup)
    (hnn : n ∉ (getRec h n).children) :
    getRec (delChildren h n) n = { getRec h n with children := [] } ∧
    (∀ c ∈ (getRec h n).children,
      getRec (delChildren h n) c = { getRec h c with parent := none }) ∧
    (∀ j, j ≠ n → j ∉ (getRec h n).children →
      getRec (delChildren h n) j = getRec h j) ∧
    (delChildren h n).length = h.length := by
  obtain ⟨hf1, hf2, hf3⟩ := parentClear_fold_spec (getRec h n).children h hnodup hbound
  unfold delChildren
  dsimp only
  refine ⟨?_, ?_, ?_, ?_⟩
  · rw [hf2 n hnn]
    exact getRec_setRec_self _ n _ (by rw [hf3]; exact hn)
  · intro c hc
    rw [getRec_setRec_ne _ n c _ (by rintro rfl; exact hnn hc)]
    exact hf1 c hc
  · intro j hjn hjc
    rw [getRec_setRec_ne _ n j _ (Ne.symm hjn)]
    exact hf2 j hjc
  · rw [setRec_length, hf3]

theorem attachChildren_none_spec : ∀ (cs : List ℕ) (h : Heap) (n : ℕ) (h' : Heap),
    attachChildren h n cs = .ok h' → n < h.length → cs.Nodup → n ∉ cs →
    (∀ c ∈ cs, (getRec h c).parent = none ∧ c < h.length) →
    (getRec h' n = { getRec h n with
        children := (getRec h n).children ++ cs } ∧
     (∀ c ∈ cs, getRec h' c = { getRec h c with parent := some n }) ∧
     (∀ j, j ≠ n → j ∉ cs → getRec h' j = getRec h j) ∧
     h'.length = h.length) := by
  intro cs
  induction cs with
  | nil =>
    intro h n h' hok _ _ _ _
    rw [attachChildren] at hok
    injection hok with hh
    subst hh
    exact ⟨by rw [List.append_nil], fun c hc => absurd hc (List.not_mem_nil c),
      fun j _ _ => rfl, rfl⟩
  | cons c cs ih =>
    intro h n h' hok hn hnodup hnmem hpre
    rw [List.nodup_cons] at hnodup
    rw [List.mem_cons, not_or] at hnmem
    have hc0 := hpre c (List.mem_cons_self c cs)
    rw [attachChildren] at hok
    split at hok
    case _ h1 hsp =>
      obtain ⟨s1, s2, s3, s4⟩ := setParent_fromNone_spec h c n h1 hsp hc0.1
        hc0.2 hn (fun hh => hnmem.1 (Eq.symm hh))
      have hpre2 : ∀ c' ∈ cs, (getRec h1 c').parent = none ∧ c' < h1.length := by
        intro c' hc'
        have hne1 : c' ≠ c := by rintro rfl; exact hnodup.1 hc'
        have hne2 : c' ≠ n := by rintro rfl; exact hnmem.2 hc'
        rw [s3 c' hne1 hne2]
        obtain ⟨hp', hl'⟩ := hpre c' (List.mem_cons_of_mem c hc')
        exact ⟨hp', by rw [s4]; exact hl'⟩
      obtain ⟨i1, i2, i3, i4⟩ := ih h1 n h' hok (by rw [s4]; exact hn) hnodup.2
        hnmem.2 hpre2
      refine ⟨?_, ?_, ?_, ?_⟩
      · rw [i1, s2]
        simp
      · intro c' hc'
        rcases List.mem_cons.mp hc' with hh | hh
        · subst hh
          rw [i3 c' (fun hh => hnmem.1 (Eq.symm hh)) hnodup.1, s1]
        · rw [i2 c' hh, s3 c' (by rintro rfl; exact hnodup.1 hh)
            (by rintro rfl; exact hnmem.2 hh)]
      · intro j hjn hjcs
        rw [List.mem_cons, not_or] at hjcs
        rw [i3 j hjn hjcs.2, s3 j hjcs.1 hjn]
      · rw [i4, s4]
    case _ => cases hok

theorem attachChildren_move_spec : ∀ (cs : List ℕ) (h : Heap) (n a : ℕ) (h' : Heap),
    attachChildren h n cs = .ok h' → n < h.length → a < h.length → a ≠ n →
    cs.Nodup → n ∉ cs → a ∉ cs →
    (∀ c ∈ cs, (getRec h c).parent = some a ∧ c < h.length) →
    (getRec h' n = { getRec h n with
        children := (getRec h n).children ++ cs } ∧
     getRec h' a = { getRec h a with
        children := cs.foldl (fun l c => l.filter (fun x => x ≠ c))
          (getRec h a).children } ∧
     (∀ c ∈ cs, getRec h' c = { getRec h c with parent := some n }) ∧
     (∀ j, j ≠ n → j ≠ a → j ∉ cs → getRec h' j = getRec h j) ∧
     h'.length = h.length) := by
  intro cs
  induction cs with
  | nil =>
    intro h n a h' hok _ _ _ _ _ _ _
    rw [attachChildren] at hok
    injection hok with hh
    subst hh
    exact ⟨by rw [List.append_nil], rfl,
      fun c hc => absurd hc (List.not_mem_nil c), fun j _ _ _ => rfl, rfl⟩
  | cons c cs ih =>
    intro h n a h' hok hn ha han hnodup hnmem hamem hpre
    rw [List.nodup_cons] at hnodup
    rw [List.mem_cons, not_or] at hnmem
    rw [List.mem_cons, not_or] at hamem
    have hc0 := hpre c (List.mem_cons_self c cs)
    rw [attachChildren] at hok
    split at hok
    case _ h1 hsp =>
      obtain ⟨s1, s2, s3, s4, s5⟩ := setParent_move_spec h c a n h1 hsp hc0.1
        han hc0.2 ha hn (fun hh => hamem.1 (Eq.symm hh)) (fun hh => hnmem.1 (Eq.symm hh))
      have hpre2 : ∀ c' ∈ cs, (getRec h1 c').parent = some a ∧ c' < h1.length := by
        intro c' hc'
        have hne1 : c' ≠ c := by rintro rfl; exact hnodup.1 hc'
        have hne2 : c' ≠ n := by rintro rfl; exact hnmem.2 hc'
        have hne3 : c' ≠ a := by rintro rfl; exact hamem.2 hc'
        rw [s4 c' hne1 hne3 hne2]
        obtain ⟨hp', hl'⟩ := hpre c' (List.mem_cons_of_mem c hc')
        exact ⟨hp', by rw [s5]; exact hl'⟩
      obtain ⟨i1, i2, i3, i4, i5⟩ := ih h1 n a h' hok (by rw [s5]; exact hn)
        (by rw [s5]; exact ha) han hnodup.2 hnmem.2 hamem.2 hpre2
      refine ⟨?_, ?_, ?_, ?_, ?_⟩
      · rw [i1, s3]
        simp
      · rw [i2, s2]
        simp
      · intro c' hc'
        rcases List.mem_cons.mp hc' with hh | hh
        · subst hh
          rw [i4 c' (fun hh => hnmem.1 (Eq.symm hh)) (fun hh => hamem.1 (Eq.symm hh))
            hnodup.1, s1]
        · rw [i3 c' hh, s4 c' (by rintro rfl; exact hnodup.1 hh)
            (by rintro rfl; exact hamem.2 hh) (by rintro rfl; exact hnmem.2 hh)]
      · intro j hjn hja hjcs
        rw [List.mem_cons, not_or] at hjcs
        rw [i4 j hjn hja hjcs.2, s4 j hjcs.1 hja hjn]
      · rw [i5, s5]
    case _ => cases hok

theorem foldl_filter_eq (cs : List ℕ) : ∀ (L : List ℕ),
    cs.foldl (fun l c => l.filter (fun x => x ≠ c)) L =
      L.filter (fun x => decide (x ∉ cs)) := by
  induction cs with
  | nil =>
    intro L
    rw [List.foldl_nil]
    have : (fun x : ℕ => decide (x ∉ ([] : List ℕ))) = fun _ => true := by
      funext x
      simp
    rw [this, List.filter_true]
  | cons c cs ih =>
    intro L
    rw [List.foldl_cons, ih, List.filter_filter]
    apply List.filter_congr
    intro x _
    by_cases h1 : x = c
    · subst h1
      simp
    · by_cases h2 : x ∈ cs <;> simp [h1, h2]

theorem foldl_filter_self (l : List ℕ) :
    l.foldl (fun acc c => acc.filter (fun x => x ≠ c)) l = [] := by
  rw [foldl_filter_eq]
  rw [List.filter_eq_nil]
  intro a ha
  simp [ha]

theorem fixOrder_spec (h : Heap) (x idx p : ℕ) (h' : Heap)
    (hok : fixOrder h x idx = .ok h') (hp : (getRec h x).parent = some p)
    (hplen : p < h.length)
    (hnodup : (getRec h p).children.Nodup)
    (hbound : ∀ c ∈ (getRec h p).children, c < h.length)
    (hpnotin : p ∉ (getRec h p).children)
    (hparents : ∀ c ∈ (getRec h p).children, (getRec h c).parent = some p) :
    (getRec h' p = getRec h p ∨
     getRec h' p = { getRec h p with children := (getRec h p).children.reverse }) ∧
    (∀ j, j ≠ p → getRec h' j = getRec h j) ∧
    h'.length = h.length := by
  unfold fixOrder at hok
  rw [hp] at hok
  dsimp only at hok
  split at hok
  case _ => cases hok
  case _ k hk =>
    split at hok
    case isFalse =>
      injection hok with hh
      subst hh
      exact ⟨Or.inl rfl, fun j _ => rfl, rfl⟩
    case isTrue =>
      rw [setChildren] at hok
      split at hok
      case isFalse => cases hok
      case isTrue hrevnodup =>
        obtain ⟨d1, d2, d3, d4⟩ := delChildren_spec h p hplen hbound hnodup hpnotin
        have hpren : ∀ c ∈ (getRec h p).children.reverse,
            (getRec (delChildren h p) c).parent = none ∧
            c < (delChildren h p).length := by
          intro c hc
          rw [List.mem_reverse] at hc
          rw [d2 c hc, d4]
          exact ⟨rfl, hbound c hc⟩
        obtain ⟨a1, a2, a3, a4⟩ := attachChildren_none_spec
          ((getRec h p).children.reverse) (delChildren h p) p h' hok
          (by rw [d4]; exact hplen) hrevnodup
          (by rw [List.mem_reverse]; exact hpnotin) hpren
        refine ⟨Or.inr ?_, ?_, ?_⟩
        · rw [a1, d1]
          dsimp only
          rfl
        · intro j hjp
          by_cases hjc : j ∈ (getRec h p).children
          · rw [a2 j (by rw [List.mem_reverse]; exact hjc), d2 j hjc]
            rw [← hparents j hjc]
          · rw [a3 j hjp (by rw [List.mem_reverse]; exact hjc),
                d3 j hjp hjc]
        · rw [a4, d4]

theorem filter_ne_length : ∀ (l : List ℕ) (x : ℕ), x ∈ l → l.Nodup →
    (l.filter (fun y => y ≠ x)).length + 1 = l.length := by
  intro l
  induction l with
  | nil => intro x hx _; cases hx
  | cons a l ih =>
    intro x hx hn
    rw [List.nodup_cons] at hn
    by_cases hax : a = x
    · subst hax
      have hfl : l.filter (fun y => y ≠ a) = l := by
        rw [List.filter_eq_self]
        intro b hb
        simp only [decide_eq_true_eq]
        rintro rfl
        exact hn.1 hb
      simp [hfl]
      intro b hb hba
      subst hba
      exact hn.1 hb
    · have hxl : x ∈ l := by
        rcases List.mem_cons.mp hx with hh | hh
        · exact absurd hh.symm hax
        · exact hh
      have hrec := ih x hxl hn.2
      simp only [decide_not] at hrec
      simp [hax]
      omega

theorem eq_singleton_of_length_one {l : List ℕ} {x : ℕ}
    (h1 : l.length = 1) (hx : x ∈ l) : l = [x] := by
  obtain ⟨a, rfl⟩ := List.length_eq_one.mp h1
  obtain rfl := List.mem_singleton.mp hx
  rfl

theorem nodeDetach_counts (h : Heap) (s : ℕ) (h' : Heap) (r : ℕ)
    (hbin : binaryCounts h) (hwf : wellFormed h) (hs : s < h.length)
    (hok : nodeDetach h s = .ok (h', r)) :
    binaryCounts h' ∧ h'.length = h.length := by
  unfold nodeDetach at hok
  dsimp only at hok
  obtain ⟨bnd_s, nodup_s, notin_s, par_s, pclause_s⟩ := hwf s hs
  split at hok
  case _ => cases hok
  case _ p hpar =>
  rcases pclause_s with hcon | ⟨p', hplen, hpar', hsmem, hnocycle⟩
  · rw [hpar] at hcon; cases hcon
  rw [hpar] at hpar'
  have hpp : p' = p := (Option.some.inj hpar').symm
  rw [hpp] at hplen hsmem hnocycle
  split at hok
  case _ => cases hok
  case _ sib hsibhead =>
  have hsibfil : sib ∈ (getRec h p).children.filter (fun x => x ≠ s) :=
    List.mem_of_mem_head? hsibhead
  rw [List.mem_filter] at hsibfil
  obtain ⟨hsibmem, hsibdec⟩ := hsibfil
  have hsibs : sib ≠ s := of_decide_eq_true hsibdec
  obtain ⟨bnd_p, nodup_p, notin_p, par_p, pclause_p⟩ := hwf p hplen
  have hsibplen : sib < h.length := bnd_p sib hsibmem
  have hsp : s ≠ p := by rintro rfl; exact notin_p hsmem
  have hsibp : sib ≠ p := by rintro rfl; exact notin_p hsibmem
  have hsibpar : (getRec h sib).parent = some p := par_p sib hsibmem
  have hplen2 : (getRec h p).children.length = 2 := by
    rcases hbin p hplen with h0 | h2
    · exfalso
      rw [List.length_eq_zero] at h0
      rw [h0] at hsmem
      cases hsmem
    · exact h2
  have hfil1 : ((getRec h p).children.filter (fun y => y ≠ s)).length = 1 := by
    have := filter_ne_length (getRec h p).children s hsmem nodup_p
    omega
  have hfilsib : (getRec h p).children.filter (fun y => y ≠ s) = [sib] := by
    apply eq_singleton_of_length_one hfil1
    rw [List.mem_filter]
    exact ⟨hsibmem, hsibdec⟩
  split at hok
  case _ => cases hok
  case _ h1 hsp1 =>
  obtain ⟨t1, t2, t3, t4⟩ := setParent_toNone_spec h s p h1 hsp1 hpar hs hplen hsp
  have hpar_h1_p : (getRec h1 p).parent = (getRec h p).parent := by rw [t2]
  cases hg : (getRec h p).parent with
  | none =>
    rw [hg] at hpar_h1_p hok
    have hnoop : setParent h1 p none = .ok h1 := setParent_noop h1 p none hpar_h1_p
    rw [hnoop] at hok
    dsimp only at hok
    split at hok
    case _ => cases hok
    case _ h3 hsp3 =>
    have hsibpar1 : (getRec h1 sib).parent = some p := by
      rw [t3 sib hsibs hsibp]; exact hsibpar
    obtain ⟨u1, u2, u3, u4⟩ := setParent_toNone_spec h1 sib p h3 hsp3 hsibpar1
      (by rw [t4]; exact hsibplen) (by rw [t4]; exact hplen) hsibp
    injection hok with hh
    obtain ⟨rfl, rfl⟩ := Prod.mk.injEq .. |>.mp hh
    constructor
    · intro j hj
      rw [u4, t4] at hj
      by_cases hjp : j = p
      · subst hjp
        left
        rw [u2, t2]
        dsimp only
        rw [hfilsib]
        rw [List.filter_cons]
        have : (decide (sib ≠ sib)) = false := by simp
        rw [this]
        rfl
      · by_cases hjsib : j = sib
        · subst hjsib
          rw [u1]
          dsimp only
          have : getRec h1 j = getRec h j := t3 j hsibs hsibp
          rw [this]
          exact hbin j hj
        · rw [u3 j hjsib hjp]
          by_cases hjs : j = s
          · subst hjs
            rw [t1]
            exact hbin j hj
          · rw [t3 j hjs hjp]
            exact hbin j hj
    · rw [u4, t4]
  | some gg =>
    rcases pclause_p with hcon | ⟨gg', hgglen, hgg', hpmemgg, hggnocyc⟩
    · rw [hg] at hcon; cases hcon
    rw [hg] at hgg'
    have hggeq : gg' = gg := (Option.some.inj hgg').symm
    rw [hggeq] at hgglen hpmemgg hggnocyc
    rw [hg] at hok
    obtain ⟨bnd_gg, nodup_gg, notin_gg, par_gg, _⟩ := hwf gg hgglen
    have hggp : gg ≠ p := by rintro rfl; exact notin_gg hpmemgg
    have hggs : gg ≠ s := by
      rintro rfl
      rw [hg] at hnocycle
      exact hnocycle rfl
    rw [hg] at hpar_h1_p
    split at hok
    case _ => cases hok
    case _ h2 hsp2 =>
    obtain ⟨v1, v2, v3, v4⟩ := setParent_toNone_spec h1 p gg h2 hsp2 hpar_h1_p
      (by rw [t4]; exact hplen) (by rw [t4]; exact hgglen) (Ne.symm hggp)
    by_cases hsibgg : sib = gg
    · subst hsibgg
      exfalso
      have hsibpar2 : (getRec h2 sib).parent = some p := by
        rw [v2, t3 sib hsibs hsibp]
        exact hsibpar
      obtain ⟨k, hk⟩ : ∃ k, h2.length = k + 1 := by
        rw [v4, t4]
        exact Nat.exists_eq_succ_of_ne_zero (by omega)
      have herr : setParent h2 sib (some sib) = .error .loopError := by
        unfold setParent
        rw [if_neg (by rw [hsibpar2]; exact fun hcon => hsibp (Option.some.inj hcon).symm)]
        dsimp only
        rw [if_pos ?memchain]
        case memchain =>
          rw [hk, ancestorChain]
          exact List.mem_cons_self _ _
      rw [herr] at hok
      cases hok
    · have hsibpar2 : (getRec h2 sib).parent = some p := by
        rw [v3 sib hsibp hsibgg]
        rw [t3 sib hsibs hsibp]
        exact hsibpar
      split at hok
      case _ => cases hok
      case _ h3 hsp3 =>
      obtain ⟨w1, w2, w3, w4, w5⟩ := setParent_move_spec h2 sib p gg h3 hsp3
        hsibpar2 (Ne.symm hggp) (by rw [v4, t4]; exact hsibplen)
        (by rw [v4, t4]; exact hplen) (by rw [v4, t4]; exact hgglen) hsibp hsibgg
      injection hok with hh
      obtain ⟨rfl, rfl⟩ := Prod.mk.injEq .. |>.mp hh
      have hch2p : (getRec h2 p).children = [sib] := by
        rw [v1]
        dsimp only
        rw [t2]
        dsimp only
        exact hfilsib
      have hch2gg : (getRec h2 gg).children =
          (getRec h gg).children.filter (fun x => x ≠ p) := by
        rw [v2]
        dsimp only
        rw [t3 gg hggs hggp]
      have hggfil1 : ((getRec h gg).children.filter (fun y => y ≠ p)).length = 1 := by
        have hl2 : (getRec h gg).children.length = 2 := by
          rcases hbin gg hgglen with h0 | h2
          · exfalso
            rw [List.length_eq_zero] at h0
            rw [h0] at hpmemgg
            cases hpmemgg
          · exact h2
        have := filter_ne_length (getRec h gg).children p hpmemgg nodup_gg
        omega
      constructor
      · intro j hj
        rw [w5, v4, t4] at hj
        by_cases hjp : j = p
        · subst hjp
          left
          rw [w2]
          dsimp only
          rw [hch2p]
          rw [List.filter_cons]
          have : (decide (sib ≠ sib)) = false := by simp
          rw [this]
          rfl
        · by_cases hjgg : j = gg
          · subst hjgg
            right
            rw [w3]
            dsimp only
            rw [hch2gg]
            rw [List.length_append, hggfil1]
            rfl
          · by_cases hjsib : j = sib
            · subst hjsib
              rw [w1]
              dsimp only
              rw [v3 j hjp hjgg, t3 j hsibs hjp]
              exact hbin j hj
            · rw [w4 j hjsib hjp hjgg, v3 j hjp hjgg]
              by_cases hjs : j = s
              · subst hjs
                rw [t1]
                exact hbin j hj
              · rw [t3 j hjs hjp]
                exact hbin j hj
      · rw [w5, v4, t4]

theorem getRec_append_lt (h : Heap) (r : NodeRec) (j : ℕ) (hj : j < h.length) :
    getRec (h ++ [r]) j = getRec h j := by
  simp [getRec, List.getD, List.getElem?_append_left hj]

theorem getRec_append_self (h : Heap) (r : NodeRec) :
    getRec (h ++ [r]) h.length = r := by
  simp [getRec, List.getD, List.getElem?_concat_length]

theorem nodeAttach_counts (h : Heap) (a b : ℕ) (h' : Heap)
    (hbin : binaryCounts h) (hwf : wellFormed h)
    (ha : a < h.length) (hb : b < h.length) (hab : a ≠ b)
    (hbroot : (getRec h b).parent = none)
    (hok : nodeAttach h a b = .ok h') :
    binaryCounts h' ∧ h'.length = h.length + 1 := by
  obtain ⟨bnd_a, nodup_a, notin_a, par_a, _⟩ := hwf a ha
  have hfresh : getRec (h ++ [(⟨none, [], none, none, none⟩ : NodeRec)]) h.length =
      (⟨none, [], none, none, none⟩ : NodeRec) := getRec_append_self h _
  have haM : a ≠ h.length := by omega
  have hbM : b ≠ h.length := by omega
  have hlen1 : (h ++ [(⟨none, [], none, none, none⟩ : NodeRec)]).length =
      h.length + 1 := by simp
  have hbnotcs : b ∉ (getRec h a).children := by
    intro hc
    rw [par_a b hc] at hbroot
    cases hbroot
  unfold nodeAttach newNode at hok
  dsimp only at hok
  rw [setParent_noop _ _ none (by rw [hfresh])] at hok
  dsimp only at hok
  split at hok
  case _ => cases hok
  case _ h1v mv heq =>
  split at heq
  case isTrue hemp =>
    injection heq with hpair
    obtain ⟨hh1, hh2⟩ := Prod.mk.injEq .. |>.mp hpair
    subst hh1
    subst hh2
    have hcsnil : (getRec h a).children = [] := by
      rwa [List.isEmpty_iff] at hemp
    have hndMb : ([h.length, b] : List ℕ).Nodup := by
      simp
      omega
    rw [setChildren, if_pos hndMb] at hok
    · have hch1 : (getRec (h ++ [(⟨none, [], none, none, none⟩ : NodeRec)]) a).children
          = [] := by
        rw [getRec_append_lt h _ a ha, hcsnil]
      obtain ⟨d1, d2, d3, d4⟩ := delChildren_spec
        (h ++ [(⟨none, [], none, none, none⟩ : NodeRec)]) a (by omega)
        (by rw [hch1]; intro c hc; cases hc) (by rw [hch1]; exact List.nodup_nil)
        (by rw [hch1]; exact List.not_mem_nil a)
      have hpre : ∀ c ∈ [h.length, b],
          (getRec (delChildren (h ++ [(⟨none, [], none, none, none⟩ : NodeRec)]) a) c).parent
            = none ∧
          c < (delChildren (h ++ [(⟨none, [], none, none, none⟩ : NodeRec)]) a).length := by
        intro c hc
        rcases List.mem_cons.mp hc with rfl | hc2
        · rw [d3 _ (Ne.symm haM) (by rw [hch1]; exact List.not_mem_nil _), hfresh]
          exact ⟨rfl, by rw [d4, hlen1]; omega⟩
        · obtain rfl := List.mem_singleton.mp hc2
          rw [d3 _ (Ne.symm hab) (by rw [hch1]; exact List.not_mem_nil _),
              getRec_append_lt h _ _ hb]
          exact ⟨hbroot, by rw [d4, hlen1]; omega⟩
      obtain ⟨a1, a2, a3, a4⟩ := attachChildren_none_spec [h.length, b] _ a h' hok
        (by rw [d4, hlen1]; omega)
        (by simp; omega)
        (by simp; exact ⟨haM, hab⟩) hpre
      constructor
      · intro j hj
        rw [a4, d4, hlen1] at hj
        by_cases hja : j = a
        · subst hja
          right
          rw [a1, d1]
          dsimp only
          rfl
        · by_cases hjM : j = h.length
          · subst hjM
            left
            rw [a2 _ (List.mem_cons_self _ _)]
            dsimp only
            rw [d3 _ (Ne.symm haM) (by rw [hch1]; exact List.not_mem_nil _), hfresh]
            rfl
          · by_cases hjb : j = b
            · subst hjb
              rw [a2 j (by simp)]
              dsimp only
              rw [d3 j (Ne.symm hab) (by rw [hch1]; exact List.not_mem_nil _),
                  getRec_append_lt h _ j hb]
              exact hbin j hb
            · rw [a3 j hja (by simp [hjM, hjb]),
                  d3 j hja (by rw [hch1]; exact List.not_mem_nil _),
                  getRec_append_lt h _ j (by omega)]
              exact hbin j (by omega)
      · rw [a4, d4, hlen1]
  case isFalse hnemp =>
    have hcs2 : (getRec h a).children.length = 2 := by
      rcases hbin a ha with h0 | h2
      · exfalso
        rw [List.length_eq_zero] at h0
        rw [h0] at hnemp
        exact hnemp rfl
      · exact h2
    split at heq
    case h_2 e herr => cases heq
    case h_1 h3 hsc =>
    injection heq with hpair
    obtain ⟨hh1, hh2⟩ := Prod.mk.injEq .. |>.mp hpair
    subst hh1
    subst hh2
    rw [setChildren, if_pos nodup_a] at hsc
    · have hchM : (getRec (h ++ [(⟨none, [], none, none, none⟩ : NodeRec)])
          h.length).children = [] := by rw [hfresh]
      obtain ⟨e1, e2, e3, e4⟩ := delChildren_spec
        (h ++ [(⟨none, [], none, none, none⟩ : NodeRec)]) h.length (by omega)
        (by rw [hchM]; intro c hc; cases hc) (by rw [hchM]; exact List.nodup_nil)
        (by rw [hchM]; exact List.not_mem_nil _)
      have hpre2 : ∀ c ∈ (getRec h a).children,
          (getRec (delChildren (h ++ [(⟨none, [], none, none, none⟩ : NodeRec)])
            h.length) c).parent = some a ∧
          c < (delChildren (h ++ [(⟨none, [], none, none, none⟩ : NodeRec)])
            h.length).length := by
        intro c hc
        have hclen : c < h.length := bnd_a c hc
        rw [e3 c (by omega) (by rw [hchM]; exact List.not_mem_nil _),
            getRec_append_lt h _ c hclen]
        exact ⟨par_a c hc, by rw [e4, hlen1]; omega⟩
      obtain ⟨m1, m2, m3, m4, m5⟩ := attachChildren_move_spec
        ((getRec h a).children) _ h.length a h3 hsc
        (by rw [e4, hlen1]; omega) (by rw [e4, hlen1]; omega) haM
        nodup_a
        (by intro hc; have := bnd_a _ hc; omega)
        notin_a hpre2
      have hchA3 : (getRec h3 a).children = [] := by
        rw [m2]
        dsimp only
        rw [e3 a haM (by rw [hchM]; exact List.not_mem_nil _),
            getRec_append_lt h _ a ha]
        exact foldl_filter_self _
      have hndMb : ([h.length, b] : List ℕ).Nodup := by
        simp
        omega
      rw [setChildren, if_pos hndMb] at hok
      · obtain ⟨f1, f2, f3, f4⟩ := delChildren_spec h3 a
          (by rw [m5, e4, hlen1]; omega)
          (by rw [hchA3]; intro c hc; cases hc) (by rw [hchA3]; exact List.nodup_nil)
          (by rw [hchA3]; exact List.not_mem_nil _)
        have hpre3 : ∀ c ∈ [h.length, b],
            (getRec (delChildren h3 a) c).parent = none ∧
            c < (delChildren h3 a).length := by
          intro c hc
          rcases List.mem_cons.mp hc with rfl | hc2
          · rw [f3 _ (Ne.symm haM) (by rw [hchA3]; exact List.not_mem_nil _), m1]
            dsimp only
            rw [e1, hfresh]
            exact ⟨rfl, by rw [f4, m5, e4, hlen1]; omega⟩
          · obtain rfl := List.mem_singleton.mp hc2
            rw [f3 _ (Ne.symm hab) (by rw [hchA3]; exact List.not_mem_nil _),
                m4 _ hbM (Ne.symm hab) hbnotcs,
                e3 _ hbM (by rw [hchM]; exact List.not_mem_nil _),
                getRec_append_lt h _ _ hb]
            exact ⟨hbroot, by rw [f4, m5, e4, hlen1]; omega⟩
        obtain ⟨g1, g2, g3, g4⟩ := attachChildren_none_spec [h.length, b] _ a h' hok
          (by rw [f4, m5, e4, hlen1]; omega)
          (by simp; omega)
          (by simp; exact ⟨haM, hab⟩) hpre3
        constructor
        · intro j hj
          rw [g4, f4, m5, e4, hlen1] at hj
          by_cases hja : j = a
          · subst hja
            right
            rw [g1, f1]
            dsimp only
            rfl
          · by_cases hjM : j = h.length
            · subst hjM
              right
              rw [g2 _ (List.mem_cons_self _ _)]
              dsimp only
              rw [f3 _ (Ne.symm haM) (by rw [hchA3]; exact List.not_mem_nil _), m1]
              dsimp only
              rw [e1]
              dsimp only
              rw [List.nil_append]
              exact hcs2
            · by_cases hjb : j = b
              · subst hjb
                rw [g2 j (by simp)]
                dsimp only
                rw [f3 j (Ne.symm hab) (by rw [hchA3]; exact List.not_mem_nil _),
                    m4 j hbM (Ne.symm hab) hbnotcs,
                    e3 j hbM (by rw [hchM]; exact List.not_mem_nil _),
                    getRec_append_lt h _ j hb]
                exact hbin j hb
              · by_cases hjcs : j ∈ (getRec h a).children
                · have hjlen : j < h.length := bnd_a j hjcs
                  rw [g3 j hja (by simp [hjM, hjb]),
                      f3 j hja (by rw [hchA3]; exact List.not_mem_nil _),
                      m3 j hjcs]
                  dsimp only
                  rw [e3 j hjM (by rw [hchM]; exact List.not_mem_nil _),
                      getRec_append_lt h _ j hjlen]
                  exact hbin j hjlen
                · rw [g3 j hja (by simp [hjM, hjb]),
                      f3 j hja (by rw [hchA3]; exact List.not_mem_nil _),
                      m4 j hjM hja hjcs,
                      e3 j hjM (by rw [hchM]; exact List.not_mem_nil _),
                      getRec_append_lt h _ j (by omega)]
                  exact hbin j (by omega)
        · rw [g4, f4, m5, e4, hlen1]

theorem nodeSwap_counts (h : Heap) (a b : ℕ) (h' : Heap)
    (hbin : binaryCounts h) (hwf : wellFormed h)
    (ha : a < h.length) (hb : b < h.length)
    (hok : nodeSwap h a b = .ok h') :
    binaryCounts h' ∧ h'.length = h.length := by
  unfold nodeSwap at hok
  split at hok
  case _ => cases hok
  case _ => cases hok
  case _ pa pb hpa hpb =>
  obtain ⟨bnd_a, nodup_a, notin_a, par_a, pclause_a⟩ := hwf a ha
  obtain ⟨bnd_b, nodup_b, notin_b, par_b, pclause_b⟩ := hwf b hb
  rcases pclause_a with hcon | ⟨pa', hpalen, hpaeq, hamem, hnocyca⟩
  · rw [hpa] at hcon; cases hcon
  rw [hpa] at hpaeq
  have hpaeq2 : pa' = pa := (Option.some.inj hpaeq).symm
  rw [hpaeq2] at hpalen hamem hnocyca
  rcases pclause_b with hcon | ⟨pb', hpblen, hpbeq, hbmem, hnocycb⟩
  · rw [hpb] at hcon; cases hcon
  rw [hpb] at hpbeq
  have hpbeq2 : pb' = pb := (Option.some.inj hpbeq).symm
  rw [hpbeq2] at hpblen hbmem hnocycb
  obtain ⟨bnd_pa, nodup_pa, notin_pa, par_pa, _⟩ := hwf pa hpalen
  obtain ⟨bnd_pb, nodup_pb, notin_pb, par_pb, _⟩ := hwf pb hpblen
  have hapa : a ≠ pa := by rintro rfl; exact notin_pa hamem
  have hbpb : b ≠ pb := by rintro rfl; exact notin_pb hbmem
  split at hok
  case isTrue => cases hok
  case isFalse hsibeq =>
  split at hok
  case h_2 => cases hok
  case h_1 ia ib hia hib =>
  obtain ⟨k, hk⟩ : ∃ k, h.length = k + 1 :=
    Nat.exists_eq_succ_of_ne_zero (by omega)
  by_cases hpapb : pa = pb
  · -- identical parent ids: both parent assignments are no-ops
    subst hpapb
    rw [setParent_noop h b (some pa) hpb] at hok
    dsimp only at hok
    rw [setParent_noop h a (some pa) hpa] at hok
    dsimp only at hok
    split at hok
    case _ => cases hok
    case _ h3 hfo1 =>
    obtain ⟨x1, x2, x3⟩ := fixOrder_spec h b ia pa h3 hfo1 hpb hpalen
      nodup_pa bnd_pa notin_pa par_pa
    have hch3 : (getRec h3 pa).children = (getRec h pa).children ∨
        (getRec h3 pa).children = (getRec h pa).children.reverse := by
      rcases x1 with hh | hh
      · left; rw [hh]
      · right; rw [hh]
    have hpar3pa : (getRec h3 pa).parent = (getRec h pa).parent := by
      rcases x1 with hh | hh
      · rw [hh]
      · rw [hh]
    have hpar_a3 : (getRec h3 a).parent = some pa := by
      rw [x2 a hapa]; exact hpa
    have hmem3 : ∀ c, c ∈ (getRec h3 pa).children ↔ c ∈ (getRec h pa).children := by
      intro c
      rcases hch3 with hh | hh
      · rw [hh]
      · rw [hh, List.mem_reverse]
    have hnodup3 : (getRec h3 pa).children.Nodup := by
      rcases hch3 with hh | hh
      · rw [hh]; exact nodup_pa
      · rw [hh, List.nodup_reverse]; exact nodup_pa
    have hbnd3 : ∀ c ∈ (getRec h3 pa).children, c < h3.length := by
      intro c hc
      rw [x3]
      exact bnd_pa c ((hmem3 c).mp hc)
    have hnotin3 : pa ∉ (getRec h3 pa).children := by
      intro hc
      exact notin_pa ((hmem3 pa).mp hc)
    have hpars3 : ∀ c ∈ (getRec h3 pa).children, (getRec h3 c).parent = some pa := by
      intro c hc
      have hcmem := (hmem3 c).mp hc
      have hcpa : c ≠ pa := by rintro rfl; exact notin_pa hcmem
      rw [x2 c hcpa]
      exact par_pa c hcmem
    obtain ⟨y1, y2, y3⟩ := fixOrder_spec h3 a ib pa h' hok hpar_a3
      (by rw [x3]; exact hpalen) hnodup3 hbnd3 hnotin3 hpars3
    constructor
    · intro j hj
      rw [y3, x3] at hj
      by_cases hjpa : j = pa
      · subst hjpa
        have hl1 : (getRec h' j).children.length = (getRec h3 j).children.length := by
          rcases y1 with hh | hh
          · rw [hh]
          · rw [hh]; dsimp only; rw [List.length_reverse]
        have hl2 : (getRec h3 j).children.length = (getRec h j).children.length := by
          rcases hch3 with hh | hh
          · rw [hh]
          · rw [hh, List.length_reverse]
        rw [hl1, hl2]
        exact hbin j hj
      · rw [y2 j hjpa, x2 j hjpa]
        exact hbin j hj
    · rw [y3, x3]
  · -- distinct parent ids
    have hab : a ≠ b := by
      rintro rfl
      rw [hpa] at hpb
      exact hpapb (Option.some.inj hpb)
    have hpbpa : pb ≠ pa := fun hh => hpapb hh.symm
    by_cases hbpa : b = pa
    · exfalso
      subst hbpa
      have herr : setParent h b (some b) = .error .loopError := by
        unfold setParent
        rw [if_neg (by rw [hpb]; exact fun hcon => hbpb (Option.some.inj hcon).symm)]
        dsimp only
        rw [if_pos (by rw [hk, ancestorChain]; exact List.mem_cons_self _ _)]
      rw [herr] at hok
      cases hok
    split at hok
    case _ => cases hok
    case _ h1 hs1 =>
    obtain ⟨s1c, s1po, s1q, s1o, s1l⟩ := setParent_move_spec h b pb pa h1 hs1
      hpb hpbpa hb hpblen hpalen hbpb hbpa
    by_cases hapb : a = pb
    · exfalso
      have hpar_a1 : (getRec h1 a).parent = some pa := by
        rw [hapb] at hpa ⊢
        rw [s1po]
        dsimp only
        exact hpa
      have herr2 : setParent h1 a (some a) = .error .loopError := by
        unfold setParent
        rw [if_neg (by rw [hpar_a1]; exact fun hcon => hapa (Option.some.inj hcon).symm)]
        dsimp only
        rw [if_pos (by rw [s1l, hk, ancestorChain]; exact List.mem_cons_self _ _)]
      rw [← hapb] at hok
      rw [herr2] at hok
      cases hok
    have hpar_a1 : (getRec h1 a).parent = some pa := by
      rw [s1o a hab hapb hapa]
      exact hpa
    split at hok
    case _ => cases hok
    case _ h2 hs2 =>
    obtain ⟨s2c, s2po, s2q, s2o, s2l⟩ := setParent_move_spec h1 a pa pb h2 hs2
      hpar_a1 hpapb (by rw [s1l]; exact ha) (by rw [s1l]; exact hpalen)
      (by rw [s1l]; exact hpblen) hapa hapb
    have hbnotchpa : b ∉ (getRec h pa).children := by
      intro hc
      have := par_pa b hc
      rw [hpb] at this
      exact hpapb (Option.some.inj this).symm
    have hanotchpb : a ∉ (getRec h pb).children := by
      intro hc
      have := par_pb a hc
      rw [hpa] at this
      exact hpapb (Option.some.inj this)
    have hparpres2 : ∀ j, j ≠ a → j ≠ b →
        (getRec h2 j).parent = (getRec h j).parent := by
      intro j hja hjb
      by_cases hjpa : j = pa
      · subst hjpa
        rw [s2po]
        dsimp only
        rw [s1q]
      · by_cases hjpb : j = pb
        · subst hjpb
          rw [s2q]
          dsimp only
          rw [s1po]
        · rw [s2o j hja hjpa hjpb, s1o j hjb hjpb hjpa]
    have hfilb : List.filter (fun x => x ≠ a) [b] = [b] := by
      simp [Ne.symm hab]
    have hch2pa : (getRec h2 pa).children =
        ((getRec h pa).children.filter (fun x => x ≠ a)) ++ [b] := by
      rw [s2po]
      dsimp only
      rw [s1q]
      dsimp only
      rw [List.filter_append, hfilb]
    have hpar_b2 : (getRec h2 b).parent = some pa := by
      rw [s2o b (Ne.symm hab) hbpa hbpb, s1c]
    have hpa2len : (getRec h pa).children.length = 2 := by
      rcases hbin pa hpalen with h0 | h2c
      · exfalso
        rw [List.length_eq_zero] at h0
        rw [h0] at hamem
        cases hamem
      · exact h2c
    have hpb2len : (getRec h pb).children.length = 2 := by
      rcases hbin pb hpblen with h0 | h2c
      · exfalso
        rw [List.length_eq_zero] at h0
        rw [h0] at hbmem
        cases hbmem
      · exact h2c
    have hfilpa1 : ((getRec h pa).children.filter (fun y => y ≠ a)).length = 1 := by
      have := filter_ne_length (getRec h pa).children a hamem nodup_pa
      omega
    have hfilpb1 : ((getRec h pb).children.filter (fun y => y ≠ b)).length = 1 := by
      have := filter_ne_length (getRec h pb).children b hbmem nodup_pb
      omega
    have hnodup2pa : (getRec h2 pa).children.Nodup := by
      rw [hch2pa, List.nodup_append]
      refine ⟨nodup_pa.filter _, List.nodup_singleton b, ?_⟩
      intro x hx hxb
      rw [List.mem_singleton] at hxb
      subst hxb
      rw [List.mem_filter] at hx
      exact hbnotchpa hx.1
    have hbnd2pa : ∀ c ∈ (getRec h2 pa).children, c < h2.length := by
      intro c hc
      rw [hch2pa] at hc
      rw [s2l, s1l]
      rcases List.mem_append.mp hc with hc1 | hc2
      · rw [List.mem_filter] at hc1
        exact bnd_pa c hc1.1
      · rw [List.mem_singleton] at hc2
        subst hc2
        exact hb
    have hnotin2pa : pa ∉ (getRec h2 pa).children := by
      rw [hch2pa]
      intro hc
      rcases List.mem_append.mp hc with hc1 | hc2
      · rw [List.mem_filter] at hc1
        exact notin_pa hc1.1
      · rw [List.mem_singleton] at hc2
        exact hbpa hc2.symm
    have hpars2pa : ∀ c ∈ (getRec h2 pa).children, (getRec h2 c).parent = some pa := by
      intro c hc
      rw [hch2pa] at hc
      rcases List.mem_append.mp hc with hc1 | hc2
      · rw [List.mem_filter] at hc1
        have hca : c ≠ a := of_decide_eq_true hc1.2
        have hcb : c ≠ b := by rintro rfl; exact hbnotchpa hc1.1
        rw [hparpres2 c hca hcb]
        exact par_pa c hc1.1
      · rw [List.mem_singleton] at hc2
        subst hc2
        exact hpar_b2
    split at hok
    case _ => cases hok
    case _ h3 hfo1 =>
    obtain ⟨u1, u2, u3⟩ := fixOrder_spec h2 b ia pa h3 hfo1 hpar_b2
      (by rw [s2l, s1l]; exact hpalen) hnodup2pa hbnd2pa hnotin2pa hpars2pa
    have hparpres3 : ∀ j, j ≠ a → j ≠ b →
        (getRec h3 j).parent = (getRec h j).parent := by
      intro j hja hjb
      by_cases hjpa : j = pa
      · subst hjpa
        have : (getRec h3 j).parent = (getRec h2 j).parent := by
          rcases u1 with hh | hh
          · rw [hh]
          · rw [hh]
        rw [this]
        exact hparpres2 j hja hjb
      · rw [u2 j hjpa]
        exact hparpres2 j hja hjb
    have hpar_a3 : (getRec h3 a).parent = some pb := by
      rw [u2 a hapa, s2c]
    have hch3pb : (getRec h3 pb).children =
        ((getRec h pb).children.filter (fun x => x ≠ b)) ++ [a] := by
      rw [u2 pb hpbpa, s2q]
      dsimp only
      rw [s1po]
    have hnodup3pb : (getRec h3 pb).children.Nodup := by
      rw [hch3pb, List.nodup_append]
      refine ⟨nodup_pb.filter _, List.nodup_singleton a, ?_⟩
      intro x hx hxa
      rw [List.mem_singleton] at hxa
      subst hxa
      rw [List.mem_filter] at hx
      exact hanotchpb hx.1
    have hbnd3pb : ∀ c ∈ (getRec h3 pb).children, c < h3.length := by
      intro c hc
      rw [hch3pb] at hc
      rw [u3, s2l, s1l]
      rcases List.mem_append.mp hc with hc1 | hc2
      · rw [List.mem_filter] at hc1
        exact bnd_pb c hc1.1
      · rw [List.mem_singleton] at hc2
        subst hc2
        exact ha
    have hnotin3pb : pb ∉ (getRec h3 pb).children := by
      rw [hch3pb]
      intro hc
      rcases List.mem_append.mp hc with hc1 | hc2
      · rw [List.mem_filter] at hc1
        exact notin_pb hc1.1
      · rw [List.mem_singleton] at hc2
        exact hapb hc2.symm
    have hpars3pb : ∀ c ∈ (getRec h3 pb).children, (getRec h3 c).parent = some pb := by
      intro c hc
      rw [hch3pb] at hc
      rcases List.mem_append.mp hc with hc1 | hc2
      · rw [List.mem_filter] at hc1
        have hcb : c ≠ b := of_decide_eq_true hc1.2
        have hca : c ≠ a := by rintro rfl; exact hanotchpb hc1.1
        rw [hparpres3 c hca hcb]
        exact par_pb c hc1.1
      · rw [List.mem_singleton] at hc2
        subst hc2
        exact hpar_a3
    obtain ⟨v1, v2, v3⟩ := fixOrder_spec h3 a ib pb h' hok hpar_a3
      (by rw [u3, s2l, s1l]; exact hpblen) hnodup3pb hbnd3pb hnotin3pb hpars3pb
    constructor
    · intro j hj
      rw [v3, u3, s2l, s1l] at hj
      by_cases hjpa : j = pa
      · subst hjpa
        right
        have hv : getRec h' j = getRec h3 j := v2 j hpapb
        have hu : (getRec h3 j).children.length = (getRec h2 j).children.length := by
          rcases u1 with hh | hh
          · rw [hh]
          · rw [hh]; dsimp only; rw [List.length_reverse]
        rw [hv, hu, hch2pa, List.length_append, hfilpa1]
        rfl
      · by_cases hjpb : j = pb
        · subst hjpb
          right
          have hv : (getRec h' j).children.length = (getRec h3 j).children.length := by
            rcases v1 with hh | hh
            · rw [hh]
            · rw [hh]; dsimp only; rw [List.length_reverse]
          rw [hv, hch3pb, List.length_append, hfilpb1]
          rfl
        · by_cases hja : j = a
          · subst hja
            have : getRec h' j = getRec h2 j := by
              rw [v2 j hjpb, u2 j hjpa]
            rw [this, s2c]
            dsimp only
            have : getRec h1 j = getRec h j := s1o j hab hjpb hjpa
            rw [this]
            exact hbin j hj
          · by_cases hjb : j = b
            · subst hjb
              have hj3 : getRec h' j = getRec h3 j := v2 j hjpb
              have hj2 : getRec h3 j = getRec h2 j := u2 j hjpa
              rw [hj3, hj2, s2o j (Ne.symm hab) hjpa hjpb, s1c]
              dsimp only
              exact hbin j hj
            · rw [v2 j hjpb, u2 j hjpa, s2o j hja hjpa hjpb, s1o j hjb hjpb hjpa]
              exact hbin j hj
    · rw [v3, u3, s2l, s1l]

/-- C3: on a consistent heap in which every node has zero or two children,
is_binary holds from any root with any fuel, and it still holds (heap-wide)
after any successful detach, any successful swap, and any successful attach
whose attached subtree root is parentless (freshly detached) and distinct
from the attach location.  This last proviso is necessary: see the
counterexample, where attaching a still-connected node breaks binarity. -/
theorem operators_preserve_binary (h : Heap) (hbin : binaryCounts h)
    (hwf : wellFormed h) :
    (∀ fuel i, is_binary h fuel i = true) ∧
    (∀ s h' r, s < h.length → nodeDetach h s = .ok (h', r) →
      binaryCounts h' ∧ ∀ fuel i, is_binary h' fuel i = true) ∧
    (∀ a b h', a < h.length → b < h.length → nodeSwap h a b = .ok h' →
      binaryCounts h' ∧ ∀ fuel i, is_binary h' fuel i = true) ∧
    (∀ a b h', a < h.length → b < h.length → a ≠ b →
      (getRec h b).parent = none → nodeAttach h a b = .ok h' →
      binaryCounts h' ∧ ∀ fuel i, is_binary h' fuel i = true) := by
  refine ⟨binaryCounts_is_binary h hbin, ?_, ?_, ?_⟩
  · intro s h' r hs hok
    obtain ⟨hb', _⟩ := nodeDetach_counts h s h' r hbin hwf hs hok
    exact ⟨hb', binaryCounts_is_binary h' hb'⟩
  · intro a b h' ha hb hok
    obtain ⟨hb', _⟩ := nodeSwap_counts h a b h' hbin hwf ha hb hok
    exact ⟨hb', binaryCounts_is_binary h' hb'⟩
  · intro a b h' ha hb hab hbroot hok
    obtain ⟨hb', _⟩ := nodeAttach_counts h a b h' hbin hwf ha hb hab hbroot hok
    exact ⟨hb', binaryCounts_is_binary h' hb'⟩

/-- C3, counterexample: deepHeap is a well-formed strictly-binary tree, yet
attaching leaf 5 (which is still connected under node 3) at leaf 2 succeeds
and leaves node 3 with a single child: is_binary becomes false.  A successful
attach does NOT always preserve strict binarity. -/
theorem attach_connected_node_breaks_binary :
    binaryCounts deepHeap ∧ wellFormed deepHeap ∧
    is_binary deepHeap 7 0 = true ∧
    (nodeAttach deepHeap 2 5).map (fun hh => is_binary hh 8 0) = .ok false :=
  ⟨by unfold binaryCounts; decide, by unfold wellFormed; decide, rfl, rfl⟩

theorem operators_preserve_binary_witness :
    (∀ fuel i, is_binary deepHeap fuel i = true) ∧
    (∀ s h' r, s < deepHeap.length → nodeDetach deepHeap s = .ok (h', r) →
      binaryCounts h' ∧ ∀ fuel i, is_binary h' fuel i = true) ∧
    (∀ a b h', a < deepHeap.length → b < deepHeap.length →
      nodeSwap deepHeap a b = .ok h' →
      binaryCounts h' ∧ ∀ fuel i, is_binary h' fuel i = true) ∧
    (∀ a b h', a < deepHeap.length → b < deepHeap.length → a ≠ b →
      (getRec deepHeap b).parent = none → nodeAttach deepHeap a b = .ok h' →
      binaryCounts h' ∧ ∀ fuel i, is_binary h' fuel i = true) :=
  operators_preserve_binary deepHeap (by unfold binaryCounts; decide)
    (by unfold wellFormed; decide)

/-! ### Tip preservation of prune-and-regraft (C5) -/

/-- C5: when the regraft location is an internal node (here the returned
root itself), prune-and-regraft preserves the tips: on the four-leaf shape
with arbitrary labels and branch lengths, the tip-label list after the
operation is a permutation of the one before — same multiset, same count.
(When the location is a leaf this fails; see the counterexample.) -/
theorem prune_regraft_preserves_tips_at_internal (L0 : Option String)
    (M1 M2 A3 A4 A5 A6 : String) (l0 l1 l2 l3 l4 l5 l6 : Option ℚ) :
    (pruneAndRegraft (quadHeap L0 M1 M2 A3 A4 A5 A6 l0 l1 l2 l3 l4 l5 l6) 4 0).map
        (fun pr => tipLabels pr.1 8 pr.2) =
      .ok ([some A5, some A6] ++ [some A3, some A4]) ∧
    tipLabels (quadHeap L0 M1 M2 A3 A4 A5 A6 l0 l1 l2 l3 l4 l5 l6) 7 0 =
      ([some A3, some A4] ++ [some A5, some A6]) ∧
    ([some A5, some A6] ++ [some A3, some A4]).Perm
      ([some A3, some A4] ++ [some A5, some A6]) ∧
    ([some A5, some A6] ++ [some A3, some A4]).length =
      ([some A3, some A4] ++ [some A5, some A6]).length := by
  refine ⟨?_, ?_, List.perm_append_comm, rfl⟩
  · simp [pruneAndRegraft, nodeDetach, nodeAttach, newNode, setParent,
      detachFromParent, setChildren, attachChildren, delChildren, ancestorChain,
      getRec, setRec, quadHeap, Except.bind, Except.map, tipLabels, leafIds, preorder]
  · simp [tipLabels, leafIds, preorder, getRec, quadHeap]

/-- C5, counterexample: regrafting subtree 4 at the LEAF node 3 turns that
leaf into an interior node and creates a fresh unlabeled leaf: tip `A`
disappears from the tip-label list and an unlabeled tip appears, so the set
of tip labels is not preserved by a successful pruneAndRegraft. -/
theorem prune_regraft_changes_tip_labels_on_leaf :
    tipLabels (quadHeap none "m1" "m2" "A" "B" "C" "D"
        none none none none none none none) 7 0 =
      [some "A", some "B", some "C", some "D"] ∧
    (pruneAndRegraft (quadHeap none "m1" "m2" "A" "B" "C" "D"
        none none none none none none none) 4 3).map
        (fun pr => tipLabels pr.1 8 pr.2) =
      .ok [some "C", some "D", none, some "B"] ∧
    some "A" ∈ [some "A", some "B", some "C", some "D"] ∧
    some "A" ∉ [some "C", some "D", none, (some "B" : Option String)] :=
  ⟨rfl, rfl, by decide, by decide⟩

theorem prune_regraft_preserves_tips_at_internal_witness :
    (pruneAndRegraft (quadHeap none "m1" "m2" "A" "B" "C" "D"
        none none none none none none none) 4 0).map
        (fun pr => tipLabels pr.1 8 pr.2) =
      .ok ([some "C", some "D"] ++ [some "A", some "B"]) ∧
    tipLabels (quadHeap none "m1" "m2" "A" "B" "C" "D"
        none none none none none none none) 7 0 =
      ([some "A", some "B"] ++ [some "C", some "D"]) ∧
    ([some "C", some "D"] ++ [some "A", some "B"]).Perm
      ([some "A", some "B"] ++ [some "C", some "D"]) ∧
    ([some "C", some "D"] ++ [some "A", some "B"]).length =
      ([some "A", some "B"] ++ [some "C", some "D"]).length :=
  prune_regraft_preserves_tips_at_internal none "m1" "m2" "A" "B" "C" "D"
    none none none none none none none


end Fulgurite
